import Mathlib

set_option linter.unreachableTactic false
set_option linter.unusedTactic false
set_option maxRecDepth 8192
set_option maxHeartbeats 1000000
set_option linter.constructorNameAsVariable false

/-!
Shallow embedding of the puby record-matching and citation-key core:
the code of src/puby/matcher.py, src/puby/models.py and
src/puby/similarity_utils.py, together with theorems checking the
natural-language specification against it.

Modelling conventions:
* Python floats are modelled as exact rationals.
* Python strings are modelled as Lean strings, operations working on the
  underlying character list.  The character classes of the regular
  expressions involved and the case maps of str.lower / str.upper are
  modelled on the ASCII fragment: a word character is an ASCII
  alphanumeric character or the underscore, a whitespace character is one
  of space, tab, newline, carriage return, vertical tab, form feed.
* Python sets of strings are modelled as Finset String; the code only
  ever takes cardinalities of unions and intersections, for which the
  model is exact.
* Python re.sub with the concrete patterns appearing in the code is
  modelled by a fuelled left-to-right scan; each pattern of the source
  admits no backtracking, so the scan is an exact model.  The fuel is the
  length of the scanned string, which every step strictly decreases.
-/

namespace Puby

/-- Models Python str.lower on one character (ASCII fragment). -/
def pyLower (c : Char) : Char :=
  if 'A' ≤ c ∧ c ≤ 'Z' then Char.ofNat (c.toNat + 32) else c

/-- Models Python str.upper on one character (ASCII fragment). -/
def pyUpper (c : Char) : Char :=
  if 'a' ≤ c ∧ c ≤ 'z' then Char.ofNat (c.toNat - 32) else c

/-- The character class of the regular expression \w (ASCII fragment):
alphanumeric characters and the underscore. -/
def isWordChar (c : Char) : Bool := c.isAlphanum || c = '_'

/-- The character class of the regular expression \s and of str.strip
(ASCII fragment). -/
def isSpaceChar (c : Char) : Bool :=
  c = ' ' || c = '\t' || c = '\n' || c = '\r' || c = '\x0b' || c = '\x0c'

/-- The character class [a-zA-Z] of the LaTeX-command and HTML-entity
patterns. -/
def isAsciiLetter (c : Char) : Bool :=
  ('a' ≤ c && c ≤ 'z') || ('A' ≤ c && c ≤ 'Z')

/-- Models str.strip from the left: drop leading whitespace. -/
def dropLeadingWS (l : List Char) : List Char := l.dropWhile isSpaceChar

/-- Models str.strip: drop leading and trailing whitespace. -/
def stripWSList (l : List Char) : List Char :=
  ((dropLeadingWS l).reverse.dropWhile isSpaceChar).reverse

/-- Models the substitution re.sub of \s+ by a single space: every
maximal run of whitespace becomes one space.  The flag records whether
the previous character belonged to a whitespace run. -/
def collapseWSAux : Bool → List Char → List Char
  | _, [] => []
  | prevSpace, c :: cs =>
    if isSpaceChar c then
      if prevSpace then collapseWSAux true cs
      else ' ' :: collapseWSAux true cs
    else c :: collapseWSAux false cs

def collapseWS (l : List Char) : List Char := collapseWSAux false l

/-- Models Python str.split() (split on whitespace runs, no empty
tokens); the accumulator holds the current token reversed. -/
def splitWSAux : List Char → List Char → List (List Char)
  | acc, [] => if acc.isEmpty then [] else [acc.reverse]
  | acc, c :: cs =>
    if isSpaceChar c then
      if acc.isEmpty then splitWSAux [] cs else acc.reverse :: splitWSAux [] cs
    else splitWSAux (c :: acc) cs

def splitWSList (l : List Char) : List (List Char) := splitWSAux [] l

/-- Models the Python substring test (sep in s) on character lists. -/
def hasSubList (sep : List Char) : List Char → Bool
  | [] => sep.isEmpty
  | c :: cs => sep.isPrefixOf (c :: cs) || hasSubList sep cs

/-- Models s.split(sep)[0]: the characters before the first occurrence
of sep (the whole list when sep does not occur). -/
def takeBeforeSub (sep : List Char) : List Char → List Char
  | [] => []
  | c :: cs => if sep.isPrefixOf (c :: cs) then [] else c :: takeBeforeSub sep cs

/-- String wrappers. -/
def pyLowerStr (s : String) : String := ⟨s.data.map pyLower⟩

def pyUpperStr (s : String) : String := ⟨s.data.map pyUpper⟩

def stripWS (s : String) : String := ⟨stripWSList s.data⟩

def splitWS (s : String) : List String := (splitWSList s.data).map List.asString

def hasSubStr (sep s : String) : Bool := hasSubList sep.data s.data

/-!  Fuelled model of re.sub for the concrete patterns of the source.
A pattern matcher takes the scanned suffix and returns, on a match at
its head, the replacement text together with the total number of
characters matched (always at least one).  The scan tries the pattern at
every position, emits the replacement and continues after the match,
exactly like re.sub; replacements are not rescanned by the same pass. -/

def substFuel (m : List Char → Option (List Char × Nat)) :
    Nat → List Char → List Char
  | 0, s => s
  | _ + 1, [] => []
  | fuel + 1, c :: cs =>
    match m (c :: cs) with
    | some (r, consumed) => r ++ substFuel m fuel ((c :: cs).drop consumed)
    | none => c :: substFuel m fuel cs

def reSubst (m : List Char → Option (List Char × Nat)) (s : List Char) : List Char :=
  substFuel m s.length s

/-- Pattern backslash cmd \x7b ([^\x7d]+) \x7d with replacement the
captured group: a fixed command name, a braced group of at least one
non-brace character.  Used for the four fixed LaTeX commands. -/
def matchCmdBraced (cmd : List Char) (s : List Char) : Option (List Char × Nat) :=
  match s with
  | '\\' :: rest =>
    if cmd.isPrefixOf rest then
      match rest.drop cmd.length with
      | '\x7b' :: rest2 =>
        let inner := rest2.takeWhile (fun c => c ≠ '\x7d')
        if inner.isEmpty then none
        else
          match rest2.drop inner.length with
          | '\x7d' :: _ => some (inner, 1 + cmd.length + 1 + inner.length + 1)
          | _ => none
      | _ => none
    else none
  | _ => none

/-- Pattern backslash [a-zA-Z]+ \x7b ([^\x7d]*) \x7d with replacement
the captured group: the generic LaTeX command stripper (the group may be
empty). -/
def matchGenericCmdBraced (s : List Char) : Option (List Char × Nat) :=
  match s with
  | '\\' :: rest =>
    let letters := rest.takeWhile isAsciiLetter
    if letters.isEmpty then none
    else
      match rest.drop letters.length with
      | '\x7b' :: rest2 =>
        let inner := rest2.takeWhile (fun c => c ≠ '\x7d')
        match rest2.drop inner.length with
        | '\x7d' :: _ => some (inner, 1 + letters.length + 1 + inner.length + 1)
        | _ => none
      | _ => none
  | _ => none

/-- Pattern \x7b ([^\x7d]+) \x7d with replacement the captured group:
bare brace stripping. -/
def matchBraced (s : List Char) : Option (List Char × Nat) :=
  match s with
  | '\x7b' :: rest =>
    let inner := rest.takeWhile (fun c => c ≠ '\x7d')
    if inner.isEmpty then none
    else
      match rest.drop inner.length with
      | '\x7d' :: _ => some (inner, 1 + inner.length + 1)
      | _ => none
  | _ => none

/-- Pattern backslash [a-zA-Z]+ with empty replacement: removal of
remaining LaTeX commands. -/
def matchBareCmd (s : List Char) : Option (List Char × Nat) :=
  match s with
  | '\\' :: rest =>
    let letters := rest.takeWhile isAsciiLetter
    if letters.isEmpty then none else some ([], 1 + letters.length)
  | _ => none

/-- Pattern &[a-zA-Z]+; replaced by a space: HTML entities. -/
def matchHtmlEntity (s : List Char) : Option (List Char × Nat) :=
  match s with
  | '&' :: rest =>
    let letters := rest.takeWhile isAsciiLetter
    if letters.isEmpty then none
    else
      match rest.drop letters.length with
      | ';' :: _ => some ([' '], 1 + letters.length + 1)
      | _ => none
  | _ => none

/-- Pattern <[^>]+> replaced by a space: HTML tags. -/
def matchHtmlTag (s : List Char) : Option (List Char × Nat) :=
  match s with
  | '<' :: rest =>
    let inner := rest.takeWhile (fun c => c ≠ '>')
    if inner.isEmpty then none
    else
      match rest.drop inner.length with
      | '>' :: _ => some ([' '], 1 + inner.length + 1)
      | _ => none
  | _ => none

/-! Embedding of similarity_utils.normalize_text (the same code is
inlined as PublicationMatcher._normalize_text in matcher.py): replace
every character matching [^\w\s] by a space after lowercasing, collapse
whitespace runs, strip. -/

def normalizeTextList (l : List Char) : List Char :=
  stripWSList (collapseWS
    ((l.map pyLower).map (fun c => if isWordChar c || isSpaceChar c then c else ' ')))

/-- similarity_utils.normalize_text (the guard on empty input is the
identity on the empty string). -/
def normalize_text (s : String) : String :=
  if s = "" then "" else ⟨normalizeTextList s.data⟩

/-- PublicationMatcher._normalize_text: textually the same substitutions
without the empty guard. -/
def matcherNormalizeText (s : String) : String := ⟨normalizeTextList s.data⟩

/-! Embedding of Publication._normalize_title (models.py): lowercase,
strip LaTeX markup (four fixed commands, the generic braced command,
bare braces, bare commands), strip HTML entities and tags, replace every
character matching [^\w\s-] by a space, collapse whitespace, strip. -/

def normalizeTitleList (l : List Char) : List Char :=
  let n0 := l.map pyLower
  let n1 := reSubst (matchCmdBraced "textbf".data) n0
  let n2 := reSubst (matchCmdBraced "textit".data) n1
  let n3 := reSubst (matchCmdBraced "emph".data) n2
  let n4 := reSubst (matchCmdBraced "text".data) n3
  let n5 := reSubst matchGenericCmdBraced n4
  let n6 := reSubst matchBraced n5
  let n7 := reSubst matchBareCmd n6
  let n8 := reSubst matchHtmlEntity n7
  let n9 := reSubst matchHtmlTag n8
  let n10 := n9.map (fun c => if isWordChar c || isSpaceChar c || c = '-' then c else ' ')
  stripWSList (collapseWS n10)

def normalize_title (s : String) : String :=
  if s = "" then "" else ⟨normalizeTitleList s.data⟩

/-! Data model (models.py).  The raw_data field (an opaque provenance
dictionary of type Dict[str, Any], unused by the matching and key
generation code) is not modelled. -/

structure Author where
  name : String
  given_name : Option String := none
  family_name : Option String := none
  orcid : Option String := none
  affiliation : Option String := none
deriving DecidableEq, Repr

structure Publication where
  title : String
  authors : List Author
  year : Option Int := none
  doi : Option String := none
  journal : Option String := none
  volume : Option String := none
  issue : Option String := none
  pages : Option String := none
  abstract : Option String := none
  url : Option String := none
  publication_date : Option (Int × Int × Int) := none
  publication_type : String := "article"
  source : Option String := none
deriving DecidableEq, Repr

/-- Python truthiness of an Optional[str] field: present and non-empty. -/
def optTruthy : Option String → Prop
  | none => False
  | some s => s ≠ ""

instance : DecidablePred optTruthy := fun o => by
  cases o with
  | none => exact isFalse (fun h => h)
  | some s => exact inferInstanceAs (Decidable (s ≠ ""))

/-- Python truthiness of an Optional[int] field: present and non-zero. -/
def optIntTruthy : Option Int → Prop
  | none => False
  | some n => n ≠ 0

instance : DecidablePred optIntTruthy := fun o => by
  cases o with
  | none => exact isFalse (fun h => h)
  | some n => exact inferInstanceAs (Decidable (n ≠ 0))

/-- Python min on two rationals (kernel-reducible, unlike the order
instance minimum; see pyMin_eq_min). -/
def pyMin (a b : ℚ) : ℚ := if a ≤ b then a else b

/-- Python max on two rationals. -/
def pyMax (a b : ℚ) : ℚ := if a ≤ b then b else a

/-! Embedding of similarity_utils.py. -/

/-- similarity_utils.calculate_jaccard_similarity. -/
def calculate_jaccard_similarity (words1 words2 : Finset String) : ℚ :=
  if words1 = ∅ ∨ words2 = ∅ then 0
  else
    let intersection := (words1 ∩ words2).card
    let union := (words1 ∪ words2).card
    if union > 0 then (intersection : ℚ) / (union : ℚ) else 0

/-- The boost branch shared by the tails of
similarity_utils.calculate_enhanced_title_similarity (reached both when
neither containment branch fires and when both titles are short). -/
def boostedJaccard (words1 words2 : Finset String) (jaccard_score : ℚ) : ℚ :=
  let intersection := (words1 ∩ words2).card
  if 2 ≤ intersection ∧
      (1 : ℚ) / 2 ≤ (intersection : ℚ) / ((Nat.min words1.card words2.card : ℕ) : ℚ) then
    pyMin 1 (jaccard_score * (if 3 ≤ intersection then 1.2 else 1.1))
  else jaccard_score

/-- similarity_utils.calculate_enhanced_title_similarity: word-set
Jaccard with substring / word-subset containment bonuses for titles
longer than 15 characters and an intersection boost otherwise.  Inputs
are expected already normalized. -/
def calculate_enhanced_title_similarity (title1 title2 : String) : ℚ :=
  if title1 = "" ∨ title2 = "" then 0
  else
    let words1 := (splitWS title1).toFinset
    let words2 := (splitWS title2).toFinset
    if words1 = ∅ ∨ words2 = ∅ then 0
    else
      let jaccard_score := calculate_jaccard_similarity words1 words2
      if 15 < title1.length ∨ 15 < title2.length then
        let shorter := if title1.length ≤ title2.length then title1 else title2
        let longer := if title1.length ≤ title2.length then title2 else title1
        if hasSubStr shorter longer then
          pyMax jaccard_score (pyMin 1 ((shorter.length : ℚ) / (longer.length : ℚ) + 0.2))
        else
          let shorter_words := if words1.card ≤ words2.card then words1 else words2
          let longer_words := if words1.card ≤ words2.card then words2 else words1
          if shorter_words ⊆ longer_words then
            pyMax jaccard_score
              (pyMin 1 ((shorter_words.card : ℚ) / (longer_words.card : ℚ) + 0.4))
          else boostedJaccard words1 words2 jaccard_score
      else boostedJaccard words1 words2 jaccard_score

/-! Embedding of matcher.py. -/

structure MatchResult where
  source_publication : Publication
  reference_publication : Publication
  confidence : ℚ
  is_match : Bool
  match_reasons : List String
deriving DecidableEq, Repr

structure PotentialMatch where
  source_publication : Publication
  reference_publication : Publication
  confidence : ℚ
deriving DecidableEq, Repr

structure PublicationMatcher where
  similarity_threshold : ℚ := 0.8
  year_tolerance : Int := 1
  potential_threshold : ℚ := 0.5
deriving DecidableEq, Repr

/-- PublicationMatcher._normalize_doi: doi.lower().strip(). -/
def normalize_doi (doi : String) : String := stripWS (pyLowerStr doi)

/-- PublicationMatcher._check_doi_match. -/
def check_doi_match (pub1 pub2 : Publication) : Option MatchResult :=
  if optTruthy pub1.doi ∧ optTruthy pub2.doi then
    if normalize_doi (pub1.doi.getD "") = normalize_doi (pub2.doi.getD "") then
      some ⟨pub1, pub2, 1, true, ["doi"]⟩
    else
      some ⟨pub1, pub2, 0, false, []⟩
  else none

/-- PublicationMatcher._calculate_title_similarity: normalize both
titles, short-circuit equal normal forms to 1, otherwise word-set
Jaccard multiplied by the word-count ratio (length penalty). -/
def calculate_title_similarity (title1 title2 : String) : ℚ :=
  if title1 = "" ∨ title2 = "" then 0
  else
    let norm1 := matcherNormalizeText title1
    let norm2 := matcherNormalizeText title2
    if norm1 = norm2 then 1
    else
      let words1 := (splitWS norm1).toFinset
      let words2 := (splitWS norm2).toFinset
      if words1 = ∅ ∨ words2 = ∅ then 0
      else
        let intersection := (words1 ∩ words2).card
        let union := (words1 ∪ words2).card
        let jaccard : ℚ := if union > 0 then (intersection : ℚ) / (union : ℚ) else 0
        let len_ratio : ℚ :=
          ((Nat.min words1.card words2.card : ℕ) : ℚ) / ((Nat.max words1.card words2.card : ℕ) : ℚ)
        jaccard * len_ratio

/-- PublicationMatcher._normalize_author_name. -/
def normalize_author_name (a : Author) : String :=
  if optTruthy a.family_name ∧ optTruthy a.given_name then
    let given_initial :=
      match (a.given_name.getD "").data with
      | [] => ""
      | c :: _ => String.singleton (pyUpper c)
    pyUpperStr (a.family_name.getD "") ++ ", " ++ given_initial
  else
    let name_parts := splitWS a.name
    if 2 ≤ name_parts.length then
      let family := pyUpperStr (name_parts.getLastD "")
      let given_initial :=
        match (name_parts.headD "").data with
        | [] => ""
        | c :: _ => String.singleton (pyUpper c)
      family ++ ", " ++ given_initial
    else pyUpperStr a.name

/-- PublicationMatcher._calculate_author_similarity: Jaccard over the
sets of normalized author names. -/
def calculate_author_similarity (authors1 authors2 : List Author) : ℚ :=
  if authors1.isEmpty ∨ authors2.isEmpty then 0
  else
    let names1 := (authors1.map normalize_author_name).toFinset
    let names2 := (authors2.map normalize_author_name).toFinset
    let intersection := (names1 ∩ names2).card
    let union := (names1 ∪ names2).card
    if union > 0 then (intersection : ℚ) / (union : ℚ) else 0

/-- PublicationMatcher._calculate_similarity: sequential accumulation of
the title, year, author and journal signals. -/
def calculate_similarity (m : PublicationMatcher) (pub1 pub2 : Publication) :
    ℚ × List String :=
  let acc0 : ℚ × List String := (0, [])
  let acc1 :=
    if pub1.title ≠ "" ∧ pub2.title ≠ "" then
      let title_sim := calculate_title_similarity pub1.title pub2.title
      if title_sim > 0.6 then (acc0.1 + title_sim * 0.5, acc0.2 ++ ["title"]) else acc0
    else acc0
  let acc2 :=
    if optIntTruthy pub1.year ∧ optIntTruthy pub2.year then
      let year_diff : ℤ := ((pub1.year.getD 0) - (pub2.year.getD 0)).natAbs
      if year_diff ≤ m.year_tolerance then
        let year_score : ℚ := pyMax 0 (1 - (year_diff : ℚ) / ((m.year_tolerance : ℚ) + 1))
        (acc1.1 + year_score * 0.2, acc1.2 ++ ["year"])
      else acc1
    else acc1
  let acc3 :=
    if ¬pub1.authors.isEmpty ∧ ¬pub2.authors.isEmpty then
      let author_sim := calculate_author_similarity pub1.authors pub2.authors
      if author_sim > 0.3 then (acc2.1 + author_sim * 0.2, acc2.2 ++ ["authors"]) else acc2
    else acc2
  let acc4 :=
    if optTruthy pub1.journal ∧ optTruthy pub2.journal ∧
        matcherNormalizeText (pub1.journal.getD "") =
          matcherNormalizeText (pub2.journal.getD "") then
      (acc3.1 + 0.1, acc3.2 ++ ["journal"])
    else acc3
  acc4

/-- PublicationMatcher.match_publications: DOI override first, then the
weighted similarity signals; is_match compares the raw accumulated
confidence with the threshold, the stored confidence is capped at 1. -/
def match_publications (m : PublicationMatcher) (pub1 pub2 : Publication) : MatchResult :=
  match check_doi_match pub1 pub2 with
  | some doi_result => doi_result
  | none =>
    let cr := calculate_similarity m pub1 pub2
    { source_publication := pub1
      reference_publication := pub2
      confidence := pyMin cr.1 1
      is_match := decide (cr.1 ≥ m.similarity_threshold)
      match_reasons := cr.2 }

/-- PublicationMatcher.find_missing: a source publication is missing
when no reference publication matches it (the Python loop sets a found
flag and breaks at the first match). -/
def find_missing (m : PublicationMatcher)
    (source_pubs reference_pubs : List Publication) : List Publication :=
  if source_pubs.isEmpty then []
  else if reference_pubs.isEmpty then source_pubs
  else
    source_pubs.filter
      (fun s => !(reference_pubs.any (fun r => (match_publications m s r).is_match)))

/-- The scan of PublicationMatcher.find_duplicates over the indexed
suffix: an index already claimed is skipped, otherwise the unclaimed
later matches form a group, emitted when non-trivial. -/
def findDuplicatesGo (m : PublicationMatcher) :
    List (Nat × Publication) → List Nat → List (List Publication)
  | [], _ => []
  | (i, p) :: rest, seen =>
    if i ∈ seen then findDuplicatesGo m rest seen
    else
      let matched := rest.filter
        (fun x => !(seen.contains x.1) && (match_publications m p x.2).is_match)
      if matched.isEmpty then findDuplicatesGo m rest seen
      else (p :: matched.map Prod.snd) :: findDuplicatesGo m rest (seen ++ matched.map Prod.fst)

/-- PublicationMatcher.find_duplicates. -/
def find_duplicates (m : PublicationMatcher) (publications : List Publication) :
    List (List Publication) :=
  if publications.isEmpty then [] else findDuplicatesGo m publications.enum []

/-- Stable insertion into a list sorted non-increasingly by key: the new
element goes in front of the first element whose key is not larger.  Any
stable non-increasing sort (in particular Python list.sort with
reverse=True) agrees with the insertion sort built from it. -/
def insertDescBy {α : Type} (key : α → ℚ) (a : α) : List α → List α
  | [] => [a]
  | b :: l => if key b ≤ key a then a :: b :: l else b :: insertDescBy key a l

/-- Stable non-increasing sort by key, modelling
potential_matches.sort(key=confidence, reverse=True). -/
def sortDescBy {α : Type} (key : α → ℚ) : List α → List α
  | [] => []
  | a :: l => insertDescBy key a (sortDescBy key l)

/-- The pair generation of PublicationMatcher.find_potential_matches:
sources in the outer loop, references in the inner loop, keeping the
pairs whose confidence lies in the potential band. -/
def potentialPairs (m : PublicationMatcher)
    (source_pubs reference_pubs : List Publication) : List PotentialMatch :=
  source_pubs.flatMap (fun source_pub =>
    reference_pubs.filterMap (fun ref_pub =>
      let result := match_publications m source_pub ref_pub
      if m.potential_threshold ≤ result.confidence ∧
          result.confidence < m.similarity_threshold then
        some ⟨source_pub, ref_pub, result.confidence⟩
      else none))

/-- PublicationMatcher.find_potential_matches. -/
def find_potential_matches (m : PublicationMatcher)
    (source_pubs reference_pubs : List Publication) : List PotentialMatch :=
  sortDescBy (fun x => x.confidence) (potentialPairs m source_pubs reference_pubs)

/-! Citation key generation (models.py).  The calls into the Python
standard library (unicodedata.normalize("NFD", s), the Mn combining
category, str.isalpha beyond ASCII) are modelled on the Latin fragment
the code is written for: the identity on ASCII, canonical decomposition
for the common precomposed Latin letters, the combining diacritical
block U+0300-U+036F as combining marks. -/

/-- Models unicodedata canonical decomposition of one character:
identity on ASCII and on anything without an entry in the table of
common precomposed Latin letters used by the surname cleaner. -/
def nfdChar (c : Char) : List Char :=
  match c with
  | 'á' => ['a', '́']
  | 'é' => ['e', '́']
  | 'í' => ['i', '́']
  | 'ó' => ['o', '́']
  | 'ú' => ['u', '́']
  | 'à' => ['a', '̀']
  | 'è' => ['e', '̀']
  | 'ì' => ['i', '̀']
  | 'ò' => ['o', '̀']
  | 'ù' => ['u', '̀']
  | 'â' => ['a', '̂']
  | 'ê' => ['e', '̂']
  | 'î' => ['i', '̂']
  | 'ô' => ['o', '̂']
  | 'û' => ['u', '̂']
  | 'ä' => ['a', '̈']
  | 'ë' => ['e', '̈']
  | 'ï' => ['i', '̈']
  | 'ö' => ['o', '̈']
  | 'ü' => ['u', '̈']
  | 'ã' => ['a', '̃']
  | 'õ' => ['o', '̃']
  | 'ñ' => ['n', '̃']
  | 'ç' => ['c', '̧']
  | 'å' => ['a', '̊']
  | 'ż' => ['z', '̇']
  | 'ź' => ['z', '́']
  | 'ś' => ['s', '́']
  | _ => [c]

def nfdDecompose (l : List Char) : List Char := l.flatMap nfdChar

/-- Models the test unicodedata.category(c) == "Mn" on the combining
diacritical marks block. -/
def isCombiningMark (c : Char) : Bool := 0x300 ≤ c.toNat && c.toNat ≤ 0x36f

/-- Models Python char.isascii(). -/
def isAsciiChar (c : Char) : Bool := c.toNat < 128

/-- Models Python char.isalpha() on the fragment reachable here: ASCII
letters plus the non-ASCII Latin letters of the transliteration table. -/
def pyIsAlpha (c : Char) : Bool :=
  isAsciiLetter c || c ∈ ['ñ', 'ç', 'ß', 'æ', 'ø', 'å', 'ł', 'ż', 'ź', 'ś',
    'Ñ', 'Ç', 'Æ', 'Ø', 'Å', 'Ł', 'Ż', 'Ź', 'Ś']

/-- Models str.lower on the characters the transliteration map keys
cover, falling back to the ASCII case map. -/
def pyLowerExt (c : Char) : Char :=
  match c with
  | 'Ñ' => 'ñ'
  | 'Ç' => 'ç'
  | 'Æ' => 'æ'
  | 'Ø' => 'ø'
  | 'Å' => 'å'
  | 'Ł' => 'ł'
  | 'Ż' => 'ż'
  | 'Ź' => 'ź'
  | 'Ś' => 'ś'
  | _ => pyLower c

/-- Publication._transliterate_char: the fixed map, looked up on the
lowercased character, returning the character itself when absent. -/
def transliterate_char (c : Char) : String :=
  match pyLowerExt c with
  | 'ñ' => "n"
  | 'ç' => "c"
  | 'ß' => "ss"
  | 'æ' => "ae"
  | 'ø' => "o"
  | 'å' => "a"
  | 'ł' => "l"
  | 'ż' => "z"
  | 'ź' => "z"
  | 'ś' => "s"
  | _ => String.singleton c

/-- Models re.sub("-+", "-", s): collapse runs of hyphens. -/
def collapseHyphensAux : Bool → List Char → List Char
  | _, [] => []
  | prevHyphen, c :: cs =>
    if c = '-' then
      if prevHyphen then collapseHyphensAux true cs
      else '-' :: collapseHyphensAux true cs
    else c :: collapseHyphensAux false cs

/-- Models s.strip("-"). -/
def stripHyphens (l : List Char) : List Char :=
  ((l.dropWhile (· = '-')).reverse.dropWhile (· = '-')).reverse

/-- Publication._clean_surname_for_citation: decompose accents, drop
combining marks, keep ASCII letters and hyphens, transliterate non-ASCII
letters, collapse and strip hyphens, with "Unknown" as the empty
fallback. -/
def clean_surname_for_citation (surname : String) : String :=
  if surname = "" then "Unknown"
  else
    let decomposed := nfdDecompose surname.data
    let without_marks := decomposed.filter (fun c => !(isCombiningMark c))
    let cleaned := without_marks.flatMap (fun c =>
      if isAsciiChar c && (pyIsAlpha c || c = '-') then [c]
      else if !(isAsciiChar c) && pyIsAlpha c then (transliterate_char c).data
      else [])
    let collapsed := stripHyphens (collapseHyphensAux false cleaned)
    if collapsed.isEmpty then "Unknown" else ⟨collapsed⟩

/-- Publication._parse_surname_from_name. -/
def parse_surname_from_name (name : String) : String :=
  if name = "" ∨ stripWS name = "" then "Unknown"
  else
    let name := stripWS name
    if hasSubStr "," name then stripWS ⟨takeBeforeSub ",".data name.data⟩
    else
      let words := splitWS name
      if words.isEmpty then "Unknown" else words.getLastD "Unknown"

/-- Publication.extract_first_author_surname. -/
def extract_first_author_surname (pub : Publication) : String :=
  match pub.authors with
  | [] => "Unknown"
  | author :: _ =>
    let surname :=
      if optTruthy author.family_name ∧ stripWS (author.family_name.getD "") ≠ "" then
        stripWS (author.family_name.getD "")
      else parse_surname_from_name author.name
    clean_surname_for_citation surname

/-- The separator scan of Publication._extract_first_page: the source
list contains the ASCII hyphen twice, then the em dash and the textual
separators; an empty first part breaks out of the loop and falls back to
the whole (stripped) pages string. -/
def extractPageLoop (pages : String) : List String → String
  | [] => pages
  | separator :: rest =>
    if hasSubStr separator pages then
      let first_part := stripWS ⟨takeBeforeSub separator.data pages.data⟩
      if first_part ≠ "" then first_part else pages
    else extractPageLoop pages rest

/-- Publication._extract_first_page. -/
def extract_first_page (pages : String) : String :=
  if pages = "" then ""
  else
    let pages := stripWS pages
    extractPageLoop pages ["-", "-", "—", " to ", " TO "]

/-- Publication.generate_citation_key: surname, year segment, page
segment. -/
def generate_citation_key (pub : Publication) : String :=
  let surname := extract_first_author_surname pub
  let year_str := if optIntTruthy pub.year then toString (pub.year.getD 0) else "NoYear"
  let page_part :=
    if optTruthy pub.pages then
      let pp := extract_first_page (pub.pages.getD "")
      if pp ≠ "" then "-" ++ pp else ""
    else ""
  surname ++ year_str ++ page_part

def ascii_lowercase : List Char := "abcdefghijklmnopqrstuvwxyz".data

/-- Publication.resolve_key_conflicts: the base key if free, else the
first free single-letter suffix, else the documented fallback. -/
def resolve_key_conflicts (pub : Publication) (existing_keys : List String) : String :=
  let base_key := generate_citation_key pub
  if base_key ∉ existing_keys then base_key
  else
    match ascii_lowercase.find? (fun letter => decide (base_key.push letter ∉ existing_keys)) with
    | some letter => base_key.push letter
    | none => base_key ++ "z"

/-! ## Definitions written from the specification text, for comparison
with the embedded source (refinement checks). -/

/-- The title similarity as claim C2 words it: the containment-enhanced
algorithm of spec section 4.2 applied to the normalized titles, with the
normalized-equality short-circuit to 1. -/
def claimTitleSimilarity (title1 title2 : String) : ℚ :=
  let norm1 := matcherNormalizeText title1
  let norm2 := matcherNormalizeText title2
  if norm1 = "" ∨ norm2 = "" then 0
  else if norm1 = norm2 then 1
  else calculate_enhanced_title_similarity norm1 norm2

/-- The author token as claim C6 words it: FAMILY is family_name
uppercased whenever family_name is present, else the last
whitespace-delimited token of name uppercased; I is the first character
of given_name uppercased whenever given_name is present, else the first
character of the first whitespace-delimited token of name. -/
def claimAuthorToken (a : Author) : String :=
  let family :=
    match a.family_name with
    | some f => pyUpperStr f
    | none => pyUpperStr ((splitWS a.name).getLastD "")
  let initial :=
    match a.given_name with
    | some g =>
      match g.data with
      | [] => ""
      | c :: _ => String.singleton (pyUpper c)
    | none =>
      match ((splitWS a.name).headD "").data with
      | [] => ""
      | c :: _ => String.singleton c
  family ++ "," ++ initial

/-! ## Per-signal confidence contributions (the summands accumulated by
calculate_similarity, named so the amended claim C2 can be stated). -/

def titleTerm (p1 p2 : Publication) : ℚ :=
  if p1.title ≠ "" ∧ p2.title ≠ "" then
    let title_sim := calculate_title_similarity p1.title p2.title
    if title_sim > 0.6 then title_sim * 0.5 else 0
  else 0

def yearTerm (m : PublicationMatcher) (p1 p2 : Publication) : ℚ :=
  if optIntTruthy p1.year ∧ optIntTruthy p2.year then
    let year_diff : ℤ := ((p1.year.getD 0) - (p2.year.getD 0)).natAbs
    if year_diff ≤ m.year_tolerance then
      pyMax 0 (1 - (year_diff : ℚ) / ((m.year_tolerance : ℚ) + 1)) * 0.2
    else 0
  else 0

def authorsTerm (p1 p2 : Publication) : ℚ :=
  if ¬p1.authors.isEmpty ∧ ¬p2.authors.isEmpty then
    let author_sim := calculate_author_similarity p1.authors p2.authors
    if author_sim > 0.3 then author_sim * 0.2 else 0
  else 0

def journalTerm (p1 p2 : Publication) : ℚ :=
  if optTruthy p1.journal ∧ optTruthy p2.journal ∧
      matcherNormalizeText (p1.journal.getD "") =
        matcherNormalizeText (p2.journal.getD "") then
    0.1
  else 0

/-! ## Concrete instances used by counterexamples and witnesses. -/

/-- The default matcher configuration. -/
def defaultMatcher : PublicationMatcher := {}

def authorBrownAlice : Author :=
  { name := "Brown, Alice", given_name := some "Alice", family_name := some "Brown" }

def authorBrownA : Author :=
  { name := "Brown, A.", given_name := some "A.", family_name := some "Brown" }

/-- The first publication of the concrete scenario of claim C8. -/
def pubDeepApplications : Publication :=
  { title := "Deep Learning Applications in Physics"
    authors := [authorBrownAlice]
    year := some 2022
    journal := some "Physics Today" }

/-- The second publication of the concrete scenario of claim C8. -/
def pubDeepMethods : Publication :=
  { title := "Deep Learning Methods for Computational Physics"
    authors := [authorBrownA]
    year := some 2021
    journal := some "Computer Physics" }

/-- A title strictly contained in the other, giving the containment
bonus of the enhanced similarity a value above the 0.6 gate while the
length-penalized similarity stays below it (claim C2). -/
def pubShortTitle : Publication :=
  { title := "Machine Learning Applications", authors := [] }

def pubLongTitle : Publication :=
  { title := "Machine Learning Applications in Physics", authors := [] }

/-- An author with family_name present but given_name absent
(claim C6). -/
def authorMixed : Author :=
  { name := "Alice Jones", family_name := some "Smith" }

/-- Two distinct publications producing the base citation key
Smith2023-100 (claim C5). -/
def pubSmithA : Publication :=
  { title := "First Smith Paper"
    authors := [{ name := "Smith, John", given_name := some "John", family_name := some "Smith" }]
    year := some 2023
    pages := some "100-110" }

def pubSmithB : Publication :=
  { title := "Second Smith Paper"
    authors := [{ name := "Jane Smith" }]
    year := some 2023
    pages := some "100--120" }

/-- Publications with equal DOIs up to case and surrounding blanks, and
with plainly different DOIs (claims C1, C10). -/
def pubDoiUpper : Publication :=
  { title := "Alpha", authors := [], doi := some "10.1000/ABC " }

def pubDoiLower : Publication :=
  { title := "Beta completely different", authors := [], year := some 1999,
    doi := some "10.1000/abc" }

def pubDoiOther : Publication :=
  { title := "Alpha", authors := [], doi := some "10.2000/xyz" }

def pubDoiBlank1 : Publication :=
  { title := "Alpha", authors := [], doi := some " " }

def pubDoiBlank2 : Publication :=
  { title := "Beta", authors := [], doi := some "\t" }

/-- A pair of publications landing at confidence 7/10, inside the
default potential band (witnesses for C3 and C9). -/
def pubBandX : Publication :=
  { title := "Same Title Here", authors := [], year := some 2020 }

def pubBandY : Publication :=
  { title := "same title here", authors := [], year := some 2020 }

/-- A pair of publications landing at confidence 8/10, an exact match at
the default threshold (witness for C9). -/
def pubDupX : Publication :=
  { title := "Same Title Here", authors := [], year := some 2020,
    journal := some "Journal X" }

def pubDupY : Publication :=
  { title := "same title here", authors := [], year := some 2020,
    journal := some "journal x" }

/-! ## Invariant predicates for the idempotence proofs (claim C7). -/

/-- Every character is fixed by lowercasing. -/
def lowStable (l : List Char) : Prop := ∀ c ∈ l, pyLower c = c

/-- No two adjacent whitespace characters. -/
def noSpaceRun (l : List Char) : Prop :=
  l.Chain' (fun a b => isSpaceChar a = false ∨ isSpaceChar b = false)

/-- Every whitespace character is the plain space. -/
def cleanSpaces (l : List Char) : Prop :=
  ∀ c ∈ l, isSpaceChar c = true → c = ' '

/-- Neither end is whitespace. -/
def noEdgeSpace (l : List Char) : Prop :=
  (∀ c, l.head? = some c → isSpaceChar c = false) ∧
  (∀ c, l.getLast? = some c → isSpaceChar c = false)

/-- The stages of normalizeTitleList before whitespace collapsing: the
lowercasing, the nine pattern substitutions and the character filter,
written as one expression (definitionally the let-chain of
normalizeTitleList composed with collapseWS and stripWSList). -/
def titleStage (l : List Char) : List Char :=
  (reSubst matchHtmlTag (reSubst matchHtmlEntity (reSubst matchBareCmd (reSubst matchBraced
    (reSubst matchGenericCmdBraced (reSubst (matchCmdBraced "text".data)
    (reSubst (matchCmdBraced "emph".data) (reSubst (matchCmdBraced "textit".data)
    (reSubst (matchCmdBraced "textbf".data) (l.map pyLower)))))))))).map
    (fun c => if isWordChar c || isSpaceChar c || c = '-' then c else ' ')

/-! ## Lemmas and theorems -/

theorem match_publications_doi_eq (m : PublicationMatcher) (p1 p2 : Publication)
    (h1 : optTruthy p1.doi) (h2 : optTruthy p2.doi)
    (he : normalize_doi (p1.doi.getD "") = normalize_doi (p2.doi.getD "")) :
    match_publications m p1 p2 = ⟨p1, p2, 1, true, ["doi"]⟩ := by
  simp [match_publications, check_doi_match, h1, h2, he]

theorem match_publications_doi_ne (m : PublicationMatcher) (p1 p2 : Publication)
    (h1 : optTruthy p1.doi) (h2 : optTruthy p2.doi)
    (he : normalize_doi (p1.doi.getD "") ≠ normalize_doi (p2.doi.getD "")) :
    match_publications m p1 p2 = ⟨p1, p2, 0, false, []⟩ := by
  simp [match_publications, check_doi_match, h1, h2, he]

theorem isSpaceChar_cases (c : Char) (h : isSpaceChar c = true) :
    c = ' ' ∨ c = '\t' ∨ c = '\n' ∨ c = '\r' ∨ c = '\x0b' ∨ c = '\x0c' := by
  have h' := h
  simp only [isSpaceChar, Bool.or_eq_true, decide_eq_true_eq] at h'
  tauto

theorem pyLower_space (c : Char) (h : isSpaceChar c = true) : pyLower c = c := by
  rcases isSpaceChar_cases c h with h' | h' | h' | h' | h' | h' <;> subst h' <;> decide

theorem normalize_doi_blank (s : String) (h : ∀ c ∈ s.data, isSpaceChar c = true) :
    normalize_doi s = "" := by
  have hmap : s.data.map pyLower = s.data := by
    conv_rhs => rw [← List.map_id s.data]
    exact List.map_congr_left (fun c hc => pyLower_space c (h c hc))
  have hdrop : s.data.dropWhile isSpaceChar = [] :=
    List.dropWhile_eq_nil_iff.mpr (fun c hc => h c hc)
  simp [normalize_doi, stripWS, pyLowerStr, stripWSList, dropLeadingWS, hmap, hdrop]

/-- C1: when both publications carry a non-empty DOI, the DOI comparison
after lowercasing and trimming decides the whole result: equality gives
confidence 1, a match and the single reason "doi"; inequality gives
confidence 0, no match and no reasons — in both cases independently of
titles, years, authors and journals, which are universally quantified
here. -/
theorem c1_doi_override (m : PublicationMatcher) (p1 p2 : Publication)
    (h1 : optTruthy p1.doi) (h2 : optTruthy p2.doi) :
    (normalize_doi (p1.doi.getD "") = normalize_doi (p2.doi.getD "") →
      match_publications m p1 p2 = ⟨p1, p2, 1, true, ["doi"]⟩) ∧
    (normalize_doi (p1.doi.getD "") ≠ normalize_doi (p2.doi.getD "") →
      match_publications m p1 p2 = ⟨p1, p2, 0, false, []⟩) :=
  ⟨fun he => match_publications_doi_eq m p1 p2 h1 h2 he,
   fun he => match_publications_doi_ne m p1 p2 h1 h2 he⟩

theorem c1_doi_override_witness :
    match_publications defaultMatcher pubDoiUpper pubDoiLower =
      ⟨pubDoiUpper, pubDoiLower, 1, true, ["doi"]⟩ ∧
    match_publications defaultMatcher pubDoiUpper pubDoiOther =
      ⟨pubDoiUpper, pubDoiOther, 0, false, []⟩ :=
  ⟨(c1_doi_override defaultMatcher pubDoiUpper pubDoiLower (by decide) (by decide)).1
      (by decide),
   (c1_doi_override defaultMatcher pubDoiUpper pubDoiOther (by decide) (by decide)).2
      (by decide)⟩

/-- C10: two DOIs that are non-empty but consist only of whitespace pass
the non-emptiness check and then both normalize to the empty string, so
the pair is reported as a certain DOI match. -/
theorem c10_blank_doi_match (m : PublicationMatcher) (p1 p2 : Publication)
    (h1 : optTruthy p1.doi) (h2 : optTruthy p2.doi)
    (hw1 : ∀ c ∈ (p1.doi.getD "").data, isSpaceChar c = true)
    (hw2 : ∀ c ∈ (p2.doi.getD "").data, isSpaceChar c = true) :
    match_publications m p1 p2 = ⟨p1, p2, 1, true, ["doi"]⟩ :=
  match_publications_doi_eq m p1 p2 h1 h2
    ((normalize_doi_blank _ hw1).trans (normalize_doi_blank _ hw2).symm)

theorem c10_blank_doi_match_witness :
    match_publications defaultMatcher pubDoiBlank1 pubDoiBlank2 =
      ⟨pubDoiBlank1, pubDoiBlank2, 1, true, ["doi"]⟩ :=
  c10_blank_doi_match defaultMatcher pubDoiBlank1 pubDoiBlank2
    (by decide) (by decide) (by decide) (by decide)

/-- C4: find_missing keeps exactly the source publications no reference
publication matches, in source order, with the empty-input cases. -/
theorem c4_find_missing (m : PublicationMatcher) (S R : List Publication) :
    find_missing m S R =
      S.filter (fun s => decide (∀ r ∈ R, (match_publications m s r).is_match = false)) ∧
    find_missing m [] R = [] ∧
    find_missing m S [] = S := by
  refine ⟨?_, by simp [find_missing], ?_⟩
  · by_cases hS : S.isEmpty
    · rw [List.isEmpty_iff] at hS
      simp [find_missing, hS]
    · by_cases hR : R.isEmpty
      · rw [List.isEmpty_iff] at hR
        subst hR
        have hL : find_missing m S [] = S := by
          simp only [find_missing, hS]
          simp
        rw [hL]
        symm
        apply List.filter_eq_self.mpr
        intro a _
        simp
      · simp only [find_missing, hS, hR, if_false]
        apply List.filter_congr
        intro s _
        by_cases h : ∀ r ∈ R, (match_publications m s r).is_match = false
        · have hany : (R.any fun r => (match_publications m s r).is_match) = false :=
            List.any_eq_false.mpr (fun r hr => by simp [h r hr])
          rw [hany, decide_eq_true h]
          rfl
        · have hne := h
          push_neg at hne
          obtain ⟨r, hr, hmatch⟩ := hne
          simp only [ne_eq, Bool.not_eq_false] at hmatch
          have hany : (R.any fun r => (match_publications m s r).is_match) = true :=
            List.any_eq_true.mpr ⟨r, hr, hmatch⟩
          rw [hany, decide_eq_false h]
          rfl
  · rcases S with _ | ⟨a, S'⟩
    · simp [find_missing]
    · simp only [find_missing]
      simp

theorem find?_eq_some_first {α : Type} (p : α → Bool) (l : List α) (b : α)
    (h : l.find? p = some b) :
    ∃ i : Fin l.length, l.get i = b ∧ p b = true ∧
      ∀ j : Fin l.length, j.1 < i.1 → p (l.get j) = false := by
  induction l with
  | nil => simp at h
  | cons a t ih =>
    by_cases hpa : p a = true
    · rw [List.find?_cons_of_pos _ hpa] at h
      obtain rfl : a = b := by simpa using h
      exact ⟨⟨0, by simp⟩, rfl, hpa, fun j hj => by simp at hj⟩
    · rw [List.find?_cons_of_neg _ hpa] at h
      obtain ⟨i, hget, hpb, hfirst⟩ := ih h
      refine ⟨⟨i.1 + 1, by simp [Nat.succ_lt_succ i.2]⟩, by simpa using hget, hpb, ?_⟩
      rintro ⟨j, hj⟩ hlt
      cases j with
      | zero => simpa using hpa
      | succ k =>
        have hk : k < t.length := by simpa using hj
        have := hfirst ⟨k, hk⟩ (by simpa using hlt)
        simpa using this

/-- C5: the conflict resolver returns the base key when free; otherwise
the base key extended by the first free lowercase letter; otherwise,
with all twenty-six candidates taken, the documented fallback base+z.
The concluding conjuncts are the Smith2023-100 collision scenario: two
publications with that base key, resolved in order against an
accumulating key list. -/
theorem c5_resolve_key_conflicts (pub : Publication) (keys : List String) :
    (generate_citation_key pub ∉ keys →
      resolve_key_conflicts pub keys = generate_citation_key pub) ∧
    (generate_citation_key pub ∈ keys →
      (∃ l ∈ ascii_lowercase, (generate_citation_key pub).push l ∉ keys) →
      ∃ i : Fin ascii_lowercase.length,
        resolve_key_conflicts pub keys =
          (generate_citation_key pub).push (ascii_lowercase.get i) ∧
        (generate_citation_key pub).push (ascii_lowercase.get i) ∉ keys ∧
        ∀ j : Fin ascii_lowercase.length, j.1 < i.1 →
          (generate_citation_key pub).push (ascii_lowercase.get j) ∈ keys) ∧
    (generate_citation_key pub ∈ keys →
      (∀ l ∈ ascii_lowercase, (generate_citation_key pub).push l ∈ keys) →
      resolve_key_conflicts pub keys = generate_citation_key pub ++ "z") ∧
    resolve_key_conflicts pubSmithA [] = "Smith2023-100" ∧
    resolve_key_conflicts pubSmithB ["Smith2023-100"] = "Smith2023-100a" := by
  refine ⟨fun h => by simp [resolve_key_conflicts, h], ?_, ?_, by decide, by decide⟩
  · intro hbase hfree
    obtain ⟨l, hl, hlfree⟩ := hfree
    have hfind : ∃ b, ascii_lowercase.find?
        (fun letter => decide ((generate_citation_key pub).push letter ∉ keys)) = some b := by
      rcases hcase : ascii_lowercase.find?
          (fun letter => decide ((generate_citation_key pub).push letter ∉ keys)) with _ | b
      · exfalso
        have := List.find?_eq_none.mp hcase l hl
        simp [hlfree] at this
      · exact ⟨b, rfl⟩
    obtain ⟨b, hb⟩ := hfind
    obtain ⟨i, hget, hpb, hfirst⟩ := find?_eq_some_first _ _ _ hb
    refine ⟨i, ?_, ?_, ?_⟩
    · rw [hget]
      simp only [resolve_key_conflicts]
      rw [if_neg (not_not_intro hbase), hb]
    · rw [hget]
      simpa using hpb
    · intro j hj
      simpa using hfirst j hj
  · intro hbase hall
    have hfind : ascii_lowercase.find?
        (fun letter => decide ((generate_citation_key pub).push letter ∉ keys)) = none := by
      rw [List.find?_eq_none]
      intro l hl
      simp [hall l hl]
    simp only [resolve_key_conflicts]
    rw [if_neg (not_not_intro hbase), hfind]

theorem c5_resolve_key_conflicts_witness :
    resolve_key_conflicts pubSmithA [] = "Smith2023-100" ∧
    resolve_key_conflicts pubSmithB ["Smith2023-100"] = "Smith2023-100a" :=
  ⟨(c5_resolve_key_conflicts pubSmithA []).1 (by decide),
   (c5_resolve_key_conflicts pubSmithB ["Smith2023-100"]).2.2.2.2⟩

/-- C8, counterexample: in the Deep Learning scenario at the default
configuration the authors overlap completely and no DOI is present, the
pair is no match, but the confidence is 3/10 — year signal 1/10 plus
author signal 2/10, the title signal being gated out — which lies below
the potential band claimed, not inside it. -/
theorem c8_counterexample :
    calculate_author_similarity pubDeepApplications.authors pubDeepMethods.authors = 1 ∧
    pubDeepApplications.doi = none ∧ pubDeepMethods.doi = none ∧
    (match_publications defaultMatcher pubDeepApplications pubDeepMethods).is_match = false ∧
    (match_publications defaultMatcher pubDeepApplications pubDeepMethods).confidence = 3/10 ∧
    ¬(defaultMatcher.potential_threshold ≤ (3 : ℚ)/10) := by
  with_unfolding_all decide

/-- C8, amended: the Deep Learning pair yields is_match false with
confidence 3/10, strictly below the potential threshold, so the pair
lies below the potential-match band rather than inside it. -/
theorem c8_amended_below_band :
    (match_publications defaultMatcher pubDeepApplications pubDeepMethods).is_match = false ∧
    (match_publications defaultMatcher pubDeepApplications pubDeepMethods).confidence = 3/10 ∧
    (match_publications defaultMatcher pubDeepApplications pubDeepMethods).confidence <
      defaultMatcher.potential_threshold := by
  with_unfolding_all decide

/-- C2, counterexample: for one title strictly contained in the other,
the containment-enhanced similarity of spec 4.2 is 37/40 > 0.6, so the
claim requires the title reason and a positive confidence; the code
instead computes the length-penalized similarity 9/25 ≤ 0.6 and reports
no reasons and confidence 0. -/
theorem c2_counterexample :
    claimTitleSimilarity pubShortTitle.title pubLongTitle.title = 37/40 ∧
    ((37 : ℚ)/40 > 0.6) ∧
    calculate_title_similarity pubShortTitle.title pubLongTitle.title = 9/25 ∧
    ¬((9 : ℚ)/25 > 0.6) ∧
    (match_publications defaultMatcher pubShortTitle pubLongTitle).match_reasons = [] ∧
    (match_publications defaultMatcher pubShortTitle pubLongTitle).confidence = 0 := by
  with_unfolding_all decide

theorem check_doi_match_none (p1 p2 : Publication)
    (hdoi : ¬(optTruthy p1.doi ∧ optTruthy p2.doi)) :
    check_doi_match p1 p2 = none := by
  simp [check_doi_match, hdoi]

theorem calculate_similarity_confidence (m : PublicationMatcher) (p1 p2 : Publication) :
    (calculate_similarity m p1 p2).1 =
      titleTerm p1 p2 + yearTerm m p1 p2 + authorsTerm p1 p2 + journalTerm p1 p2 := by
  simp only [calculate_similarity, titleTerm, yearTerm, authorsTerm, journalTerm]
  split_ifs <;> simp <;> ring

theorem calculate_similarity_reasons (m : PublicationMatcher) (p1 p2 : Publication) :
    (calculate_similarity m p1 p2).2 =
      (if p1.title ≠ "" ∧ p2.title ≠ "" then
        if calculate_title_similarity p1.title p2.title > 0.6 then ["title"] else []
      else []) ++
      (if optIntTruthy p1.year ∧ optIntTruthy p2.year then
        if (((p1.year.getD 0) - (p2.year.getD 0)).natAbs : ℤ) ≤ m.year_tolerance then
          ["year"]
        else []
      else []) ++
      (if ¬p1.authors.isEmpty ∧ ¬p2.authors.isEmpty then
        if calculate_author_similarity p1.authors p2.authors > 0.3 then ["authors"] else []
      else []) ++
      (if optTruthy p1.journal ∧ optTruthy p2.journal ∧
          matcherNormalizeText (p1.journal.getD "") =
            matcherNormalizeText (p2.journal.getD "") then
        ["journal"]
      else []) := by
  simp only [calculate_similarity]
  split_ifs <;> simp

/-- C2, amended: with no DOI override and both titles present, the title
signal of match_publications uses the length-penalized similarity of
PublicationMatcher._calculate_title_similarity — normalized equality
short-circuits to 1, otherwise word-set Jaccard times the word-count
ratio — adding similarity times 0.5 with reason "title" exactly when
that similarity exceeds 0.6, the confidence being the capped sum of the
four signal terms. -/
theorem c2_amended_length_penalized (m : PublicationMatcher) (p1 p2 : Publication)
    (hdoi : ¬(optTruthy p1.doi ∧ optTruthy p2.doi))
    (ht1 : p1.title ≠ "") (ht2 : p2.title ≠ "") :
    ("title" ∈ (match_publications m p1 p2).match_reasons ↔
      calculate_title_similarity p1.title p2.title > 0.6) ∧
    (match_publications m p1 p2).confidence =
      pyMin (titleTerm p1 p2 + yearTerm m p1 p2 + authorsTerm p1 p2 + journalTerm p1 p2) 1 ∧
    titleTerm p1 p2 =
      (if calculate_title_similarity p1.title p2.title > 0.6 then
        calculate_title_similarity p1.title p2.title * 0.5
      else 0) := by
  have hnone := check_doi_match_none p1 p2 hdoi
  refine ⟨?_, ?_, ?_⟩
  · simp only [match_publications, hnone, calculate_similarity_reasons]
    by_cases hsim : calculate_title_similarity p1.title p2.title > 0.6
    · simp [ht1, ht2, hsim]
    · simp only [ht1, ht2, hsim, ne_eq, not_false_iff, and_self, if_true, if_false]
      constructor
      · intro hmem
        exfalso
        simp only [List.mem_append, List.mem_singleton] at hmem
        rcases hmem with (h | h) | h <;> split_ifs at h <;> simp_all
      · intro h
        exact h.elim
  · simp only [match_publications, hnone, calculate_similarity_confidence]
  · simp [titleTerm, ht1, ht2]

theorem c2_amended_length_penalized_witness :
    ("title" ∈ (match_publications defaultMatcher pubDeepApplications pubDeepMethods).match_reasons ↔
      calculate_title_similarity pubDeepApplications.title pubDeepMethods.title > 0.6) ∧
    (match_publications defaultMatcher pubDeepApplications pubDeepMethods).confidence =
      pyMin (titleTerm pubDeepApplications pubDeepMethods +
        yearTerm defaultMatcher pubDeepApplications pubDeepMethods +
        authorsTerm pubDeepApplications pubDeepMethods +
        journalTerm pubDeepApplications pubDeepMethods) 1 ∧
    titleTerm pubDeepApplications pubDeepMethods =
      (if calculate_title_similarity pubDeepApplications.title pubDeepMethods.title > 0.6 then
        calculate_title_similarity pubDeepApplications.title pubDeepMethods.title * 0.5
      else 0) :=
  c2_amended_length_penalized defaultMatcher pubDeepApplications pubDeepMethods
    (by decide) (by decide) (by decide)

/-- C6, counterexample: for an author with family_name "Smith" but no
given_name, the claim's token rule takes the family component from
family_name ("SMITH,A"), while the code requires family_name and
given_name together and here falls back to the name field, producing
"JONES, A" — a different family component, not merely different
spacing. -/
theorem c6_counterexample :
    authorMixed.family_name = some "Smith" ∧
    authorMixed.given_name = none ∧
    normalize_author_name authorMixed = "JONES, A" ∧
    claimAuthorToken authorMixed = "SMITH,A" := by
  decide

/-- C6, amended: the canonical token is built from family_name and
given_name only when both are present and non-empty; otherwise, when the
name field has at least two whitespace tokens, from the last token and
the first character of the first token; otherwise it is the whole name
uppercased.  Publication-level author similarity is the Jaccard
similarity of the two token sets (as computed by the shared Jaccard
utility), and 0 when either author list is empty. -/
theorem c6_amended_token_rule (a : Author) :
    (∀ f g, a.family_name = some f → a.given_name = some g → f ≠ "" → g ≠ "" →
      ∀ c cs, g.data = c :: cs →
        normalize_author_name a = pyUpperStr f ++ ", " ++ String.singleton (pyUpper c)) ∧
    (¬(optTruthy a.family_name ∧ optTruthy a.given_name) →
      2 ≤ (splitWS a.name).length →
      ∀ c cs, ((splitWS a.name).headD "").data = c :: cs →
        normalize_author_name a =
          pyUpperStr ((splitWS a.name).getLastD "") ++ ", " ++
            String.singleton (pyUpper c)) ∧
    (¬(optTruthy a.family_name ∧ optTruthy a.given_name) →
      (splitWS a.name).length < 2 →
      normalize_author_name a = pyUpperStr a.name) ∧
    (∀ as1 as2 : List Author,
      calculate_author_similarity as1 as2 =
        if as1.isEmpty ∨ as2.isEmpty then 0
        else calculate_jaccard_similarity
          ((as1.map normalize_author_name).toFinset)
          ((as2.map normalize_author_name).toFinset)) := by
  refine ⟨?_, ?_, ?_, ?_⟩
  · intro f g hf hg hfne hgne c cs hgdata
    have hopt : optTruthy a.family_name ∧ optTruthy a.given_name := by
      rw [hf, hg]
      exact ⟨hfne, hgne⟩
    simp only [normalize_author_name, hf, hg, Option.getD_some, hgdata]
    rw [if_pos (show optTruthy (some f) ∧ optTruthy (some g) from ⟨hfne, hgne⟩)]
  · intro hopt hlen c cs hdata
    have hlen' : 2 ≤ (splitWS a.name).length := hlen
    simp only [normalize_author_name, hopt, if_false, hlen', if_true, hdata]
  · intro hopt hlen
    have hlen' : ¬(2 ≤ (splitWS a.name).length) := by omega
    simp only [normalize_author_name, hopt, if_false, hlen', if_true]
  · intro as1 as2
    by_cases hemp : as1.isEmpty ∨ as2.isEmpty
    · have hemp' : as1 = [] ∨ as2 = [] := by
        simpa [List.isEmpty_iff] using hemp
      rcases hemp' with h | h <;> subst h <;> simp [calculate_author_similarity]
    · push_neg at hemp
      obtain ⟨h1, h2⟩ := hemp
      rcases as1 with _ | ⟨x, xs⟩
      · simp at h1
      rcases as2 with _ | ⟨y, ys⟩
      · simp at h2
      have hne1 : ((x :: xs).map normalize_author_name).toFinset ≠ ∅ := by
        simp
      have hne2 : ((y :: ys).map normalize_author_name).toFinset ≠ ∅ := by
        simp
      have hunion :
          0 < (((x :: xs).map normalize_author_name).toFinset ∪
            ((y :: ys).map normalize_author_name).toFinset).card := by
        rw [Finset.card_pos]
        refine ⟨normalize_author_name x, ?_⟩
        simp
      simp only [calculate_author_similarity, calculate_jaccard_similarity,
        List.isEmpty_cons, hne1, hne2, hunion, if_true, false_or]
      simp [hunion]

theorem c6_amended_token_rule_witness :
    normalize_author_name authorBrownAlice = "BROWN, A" ∧
    normalize_author_name { name := "Jane Smith" } = "SMITH, J" ∧
    normalize_author_name { name := "Plato" } = "PLATO" :=
  ⟨(c6_amended_token_rule authorBrownAlice).1 "Brown" "Alice" (by decide) (by decide)
      (by decide) (by decide) 'A' "lice".data (by decide),
   (c6_amended_token_rule { name := "Jane Smith" }).2.1 (by decide) (by decide)
      'J' "ane".data (by decide),
   (c6_amended_token_rule { name := "Plato" }).2.2.1 (by decide) (by decide)⟩

theorem toNat_ofNat_valid (n : Nat) (h : n.isValidChar) : (Char.ofNat n).toNat = n := by
  simp only [Char.ofNat, h, dif_pos, Char.ofNatAux]
  rfl

theorem char_le_iff_toNat (c d : Char) : c ≤ d ↔ c.toNat ≤ d.toNat := by
  rw [Char.le_def]
  rfl

theorem pyLower_toNat (c : Char) (h1 : 'A' ≤ c) (h2 : c ≤ 'Z') :
    (pyLower c).toNat = c.toNat + 32 := by
  have hA : 65 ≤ c.toNat := (char_le_iff_toNat 'A' c).mp h1
  have hv : (c.toNat + 32).isValidChar := by
    have hZ : c.toNat ≤ 90 := (char_le_iff_toNat c 'Z').mp h2
    left; omega
  simp [pyLower, h1, h2, toNat_ofNat_valid _ hv]

theorem pyLower_eq_of_not (c : Char) (h : ¬('A' ≤ c ∧ c ≤ 'Z')) : pyLower c = c := by
  simp [pyLower, h]

/-- Lowercasing is idempotent: the image of an uppercase letter is a
lowercase letter, every other character is fixed. -/
theorem pyLower_pyLower (c : Char) : pyLower (pyLower c) = pyLower c := by
  by_cases h : 'A' ≤ c ∧ c ≤ 'Z'
  · have ht := pyLower_toNat c h.1 h.2
    have hA : 65 ≤ c.toNat := (char_le_iff_toNat 'A' c).mp h.1
    have hZ : c.toNat ≤ 90 := (char_le_iff_toNat c 'Z').mp h.2
    have hZn : ('Z').toNat = 90 := rfl
    apply pyLower_eq_of_not
    intro hc
    have h2 := (char_le_iff_toNat (pyLower c) 'Z').mp hc.2
    rw [ht, hZn] at h2
    omega
  · rw [pyLower_eq_of_not c h, pyLower_eq_of_not c h]

theorem pyMin_eq_min (a b : ℚ) : pyMin a b = min a b := (min_def a b).symm

theorem pyMax_eq_max (a b : ℚ) : pyMax a b = max a b := (max_def a b).symm


theorem insertDescBy_perm {α : Type} (key : α → ℚ) (a : α) (l : List α) :
    (insertDescBy key a l).Perm (a :: l) := by
  induction l with
  | nil => simp [insertDescBy]
  | cons b t ih =>
    simp only [insertDescBy]
    split_ifs
    · exact List.Perm.refl _
    · exact (ih.cons b).trans (List.Perm.swap a b t)

theorem sortDescBy_perm {α : Type} (key : α → ℚ) (l : List α) :
    (sortDescBy key l).Perm l := by
  induction l with
  | nil => simp [sortDescBy]
  | cons a t ih =>
    exact (insertDescBy_perm key a (sortDescBy key t)).trans (ih.cons a)

theorem check_doi_match_pubs (p1 p2 : Publication) (r : MatchResult)
    (h : check_doi_match p1 p2 = some r) :
    r.source_publication = p1 ∧ r.reference_publication = p2 := by
  simp only [check_doi_match] at h
  split_ifs at h <;> simp_all <;> (obtain rfl := h.symm; exact ⟨rfl, rfl⟩)

theorem match_publications_pubs (m : PublicationMatcher) (p1 p2 : Publication) :
    (match_publications m p1 p2).source_publication = p1 ∧
    (match_publications m p1 p2).reference_publication = p2 := by
  rcases hd : check_doi_match p1 p2 with _ | r
  · simp [match_publications, hd]
  · simp only [match_publications, hd]
    exact check_doi_match_pubs p1 p2 r hd

theorem findDuplicatesGo_mem (m : PublicationMatcher) (l : List (Nat × Publication))
    (seen : List Nat) (g : List Publication) (hg : g ∈ findDuplicatesGo m l seen) :
    ∀ q ∈ g, q ∈ l.map Prod.snd := by
  induction l generalizing seen with
  | nil => simp [findDuplicatesGo] at hg
  | cons ip rest ih =>
    obtain ⟨i, p⟩ := ip
    simp only [findDuplicatesGo] at hg
    split_ifs at hg with hseen hmatched
    · intro q hq
      exact List.mem_cons_of_mem _ (ih seen hg q hq)
    · intro q hq
      exact List.mem_cons_of_mem _ (ih seen hg q hq)
    · rcases List.mem_cons.mp hg with hgrp | hrest
      · subst hgrp
        intro q hq
        rcases List.mem_cons.mp hq with hq | hq
        · subst hq
          simp
        · obtain ⟨x, hx, rfl⟩ := List.mem_map.mp hq
          have hx' := List.mem_of_mem_filter hx
          exact List.mem_cons_of_mem _ (List.mem_map_of_mem Prod.snd hx')
      · intro q hq
        exact List.mem_cons_of_mem _ (ih _ hrest q hq)

/-- C9: the matching operations read their inputs and only build new
result records: the match result carries the two input publications
themselves; find_missing returns a sublist of its source list (the very
elements, in order); every potential match pairs an element of the
source list with an element of the reference list; every duplicate-group
member is an element of the input list; and the citation-key operations
return freshly built strings, leaving the key list argument a pure
input.  (Mutation of fields is not expressible in this pure embedding;
what the embedding can and does check is that each output embeds the
untouched input values.) -/
theorem c9_inputs_preserved :
    (∀ (m : PublicationMatcher) (p1 p2 : Publication),
      (match_publications m p1 p2).source_publication = p1 ∧
      (match_publications m p1 p2).reference_publication = p2) ∧
    (∀ (m : PublicationMatcher) (S R : List Publication),
      (find_missing m S R).Sublist S) ∧
    (∀ (m : PublicationMatcher) (S R : List Publication) (pm : PotentialMatch),
      pm ∈ find_potential_matches m S R →
        pm.source_publication ∈ S ∧ pm.reference_publication ∈ R) ∧
    (∀ (m : PublicationMatcher) (pubs : List Publication) (g : List Publication),
      g ∈ find_duplicates m pubs → ∀ q ∈ g, q ∈ pubs) := by
  refine ⟨match_publications_pubs, ?_, ?_, ?_⟩
  · intro m S R
    simp only [find_missing]
    split_ifs with h1 h2
    · rw [List.isEmpty_iff] at h1
      subst h1
      exact List.Sublist.refl _
    · exact List.Sublist.refl _
    · exact List.filter_sublist S
  · intro m S R pm hpm
    have hmem : pm ∈ potentialPairs m S R :=
      ((sortDescBy_perm _ _).mem_iff).mp hpm
    simp only [potentialPairs, List.mem_flatMap, List.mem_filterMap] at hmem
    obtain ⟨s, hs, r, hr, hpair⟩ := hmem
    split_ifs at hpair with hband
    obtain rfl := (Option.some_inj.mp hpair).symm
    exact ⟨hs, hr⟩
  · intro m pubs g hg q hq
    simp only [find_duplicates] at hg
    split_ifs at hg with hemp
    · simp at hg
    · have := findDuplicatesGo_mem m pubs.enum [] g hg q hq
      rwa [List.enum_map_snd] at this

theorem c9_inputs_preserved_witness :
    ((match_publications defaultMatcher pubBandX pubBandY).source_publication = pubBandX ∧
      (match_publications defaultMatcher pubBandX pubBandY).reference_publication = pubBandY) ∧
    (find_missing defaultMatcher [pubBandX] [pubDupX]).Sublist [pubBandX] ∧
    (PotentialMatch.mk pubBandX pubBandY (7/10)).source_publication ∈ [pubBandX] ∧
    (PotentialMatch.mk pubBandX pubBandY (7/10)).reference_publication ∈ [pubBandY] ∧
    ∀ q ∈ [pubDupX, pubDupY], q ∈ [pubDupX, pubDupY] := by
  have h3 := (c9_inputs_preserved.2.2.1 defaultMatcher [pubBandX] [pubBandY]
    (PotentialMatch.mk pubBandX pubBandY (7/10)) (by with_unfolding_all decide))
  have h4 := c9_inputs_preserved.2.2.2 defaultMatcher [pubDupX, pubDupY]
    [pubDupX, pubDupY] (by with_unfolding_all decide)
  exact ⟨c9_inputs_preserved.1 defaultMatcher pubBandX pubBandY,
    c9_inputs_preserved.2.1 defaultMatcher [pubBandX] [pubDupX], h3.1, h3.2, h4⟩

theorem insertDescBy_mem {α : Type} (key : α → ℚ) (a x : α) (l : List α)
    (hx : x ∈ insertDescBy key a l) : x = a ∨ x ∈ l :=
  List.mem_cons.mp ((insertDescBy_perm key a l).mem_iff.mp hx)

theorem insertDescBy_pairwise {α : Type} (key : α → ℚ) (a : α) (l : List α)
    (hl : l.Pairwise (fun x y => key y ≤ key x)) :
    (insertDescBy key a l).Pairwise (fun x y => key y ≤ key x) := by
  induction l with
  | nil => simp [insertDescBy]
  | cons b t ih =>
    rw [List.pairwise_cons] at hl
    simp only [insertDescBy]
    split_ifs with hba
    · rw [List.pairwise_cons]
      refine ⟨?_, List.pairwise_cons.mpr hl⟩
      intro x hx
      rcases List.mem_cons.mp hx with rfl | hx
      · exact hba
      · exact le_trans (hl.1 x hx) hba
    · rw [List.pairwise_cons]
      refine ⟨?_, ih hl.2⟩
      intro x hx
      rcases insertDescBy_mem key a x t hx with rfl | hx
      · exact le_of_lt (lt_of_not_le hba)
      · exact hl.1 x hx

theorem sortDescBy_pairwise {α : Type} (key : α → ℚ) (l : List α) :
    (sortDescBy key l).Pairwise (fun x y => key y ≤ key x) := by
  induction l with
  | nil => simp [sortDescBy]
  | cons a t ih => exact insertDescBy_pairwise key a _ ih

theorem insertDescBy_map_snd {α : Type} (key : α → ℚ) (a : Nat × α)
    (l : List (Nat × α)) :
    (insertDescBy (fun x => key x.2) a l).map Prod.snd =
      insertDescBy key a.2 (l.map Prod.snd) := by
  induction l with
  | nil => simp [insertDescBy]
  | cons b t ih =>
    simp only [insertDescBy, List.map_cons]
    split_ifs
    · simp
    · simp [ih]

theorem sortDescBy_map_snd {α : Type} (key : α → ℚ) (l : List (Nat × α)) :
    (sortDescBy (fun x => key x.2) l).map Prod.snd = sortDescBy key (l.map Prod.snd) := by
  induction l with
  | nil => simp [sortDescBy]
  | cons a t ih =>
    simp only [sortDescBy, List.map_cons]
    rw [← ih, insertDescBy_map_snd]

theorem insertDescBy_pairwise_lex {α : Type} (key : α → ℚ) (a : Nat × α)
    (l : List (Nat × α))
    (hlex : l.Pairwise (fun x y => key y.2 < key x.2 ∨ (key x.2 = key y.2 ∧ x.1 < y.1)))
    (hdesc : l.Pairwise (fun x y => key y.2 ≤ key x.2))
    (ha : ∀ x ∈ l, a.1 < x.1) :
    (insertDescBy (fun x => key x.2) a l).Pairwise
      (fun x y => key y.2 < key x.2 ∨ (key x.2 = key y.2 ∧ x.1 < y.1)) := by
  induction l with
  | nil => simp [insertDescBy]
  | cons b t ih =>
    rw [List.pairwise_cons] at hlex hdesc
    simp only [insertDescBy]
    split_ifs with hba
    · rw [List.pairwise_cons]
      refine ⟨?_, List.pairwise_cons.mpr ⟨hlex.1, hlex.2⟩⟩
      intro x hx
      have hxle : key x.2 ≤ key a.2 := by
        rcases List.mem_cons.mp hx with rfl | hx
        · exact hba
        · exact le_trans (hdesc.1 x hx) hba
      rcases lt_or_eq_of_le hxle with hlt | heq
      · exact Or.inl hlt
      · exact Or.inr ⟨heq.symm, ha x hx⟩
    · rw [List.pairwise_cons]
      refine ⟨?_, ih hlex.2 hdesc.2 (fun x hx => ha x (List.mem_cons_of_mem b hx))⟩
      intro x hx
      rcases insertDescBy_mem (fun x => key x.2) a x t hx with rfl | hx
      · exact Or.inl (lt_of_not_le hba)
      · exact hlex.1 x hx

theorem sortDescBy_pairwise_lex {α : Type} (key : α → ℚ) (l : List (Nat × α))
    (hidx : l.Pairwise (fun x y => x.1 < y.1)) :
    (sortDescBy (fun x => key x.2) l).Pairwise
      (fun x y => key y.2 < key x.2 ∨ (key x.2 = key y.2 ∧ x.1 < y.1)) := by
  induction l with
  | nil => simp [sortDescBy]
  | cons a t ih =>
    rw [List.pairwise_cons] at hidx
    simp only [sortDescBy]
    refine insertDescBy_pairwise_lex key a _ (ih hidx.2) (sortDescBy_pairwise _ t) ?_
    intro x hx
    exact hidx.1 x ((sortDescBy_perm _ t).mem_iff.mp hx)

theorem fst_le_of_mem_enumFrom {α : Type} (l : List α) (n : Nat) (x : Nat × α)
    (hx : x ∈ List.enumFrom n l) : n ≤ x.1 := by
  induction l generalizing n with
  | nil => simp at hx
  | cons a t ih =>
    rw [List.enumFrom_cons] at hx
    rcases List.mem_cons.mp hx with rfl | hx
    · exact le_refl n
    · exact le_trans (Nat.le_succ n) (ih (n + 1) hx)

theorem enumFrom_pairwise_fst_lt {α : Type} (n : Nat) (l : List α) :
    (List.enumFrom n l).Pairwise (fun x y => x.1 < y.1) := by
  induction l generalizing n with
  | nil => simp
  | cons a t ih =>
    rw [List.enumFrom_cons, List.pairwise_cons]
    refine ⟨?_, ih (n + 1)⟩
    intro x hx
    have := fst_le_of_mem_enumFrom t (n + 1) x hx
    omega

theorem mem_potentialPairs_iff (m : PublicationMatcher) (S R : List Publication)
    (pm : PotentialMatch) :
    pm ∈ potentialPairs m S R ↔
      ∃ s ∈ S, ∃ r ∈ R,
        (m.potential_threshold ≤ (match_publications m s r).confidence ∧
          (match_publications m s r).confidence < m.similarity_threshold) ∧
        pm = ⟨s, r, (match_publications m s r).confidence⟩ := by
  simp only [potentialPairs, List.mem_flatMap, List.mem_filterMap]
  constructor
  · rintro ⟨s, hs, r, hr, hpair⟩
    split_ifs at hpair with hband
    obtain rfl := (Option.some_inj.mp hpair).symm
    exact ⟨s, hs, r, hr, hband, rfl⟩
  · rintro ⟨s, hs, r, hr, hband, rfl⟩
    refine ⟨s, hs, r, hr, ?_⟩
    rw [if_pos hband]

/-- C3: find_potential_matches returns exactly the generated pairs whose
confidence lies in the potential band (a permutation of the generation
list; membership characterized by source and reference positions and the
band bounds), sorted non-increasingly by confidence; and with the
generation order made explicit by indexing, the output is the index-
annotated generation list sorted strictly by confidence descending with
ties broken by ascending generation index — the stable descending sort
of the source, sources outer and references inner. -/
theorem c3_find_potential_matches (m : PublicationMatcher) (S R : List Publication) :
    (find_potential_matches m S R).Perm (potentialPairs m S R) ∧
    (∀ pm, pm ∈ find_potential_matches m S R ↔
      ∃ s ∈ S, ∃ r ∈ R,
        (m.potential_threshold ≤ (match_publications m s r).confidence ∧
          (match_publications m s r).confidence < m.similarity_threshold) ∧
        pm = ⟨s, r, (match_publications m s r).confidence⟩) ∧
    (find_potential_matches m S R).Pairwise (fun a b => b.confidence ≤ a.confidence) ∧
    find_potential_matches m S R =
      (sortDescBy (fun x => x.2.confidence) (potentialPairs m S R).enum).map Prod.snd ∧
    (sortDescBy (fun x => x.2.confidence) (potentialPairs m S R).enum).Pairwise
      (fun x y => y.2.confidence < x.2.confidence ∨
        (x.2.confidence = y.2.confidence ∧ x.1 < y.1)) := by
  refine ⟨sortDescBy_perm _ _, ?_, sortDescBy_pairwise _ _, ?_, ?_⟩
  · intro pm
    rw [show find_potential_matches m S R =
        sortDescBy (fun x => x.confidence) (potentialPairs m S R) from rfl,
      (sortDescBy_perm (fun x => x.confidence) (potentialPairs m S R)).mem_iff]
    exact mem_potentialPairs_iff m S R pm
  · rw [sortDescBy_map_snd, List.enum_map_snd]
    rfl
  · exact sortDescBy_pairwise_lex _ _ (enumFrom_pairwise_fst_lt 0 _)

/-! Lemmas for the idempotence of the normalizers (claim C7). -/

theorem isWordChar_not_space (c : Char) (h : isSpaceChar c = true) : isWordChar c = false := by
  rcases isSpaceChar_cases c h with h' | h' | h' | h' | h' | h' <;> subst h' <;> decide

theorem mem_collapseWSAux (b : Bool) (l : List Char) (c : Char)
    (hc : c ∈ collapseWSAux b l) : c ∈ l ∨ c = ' ' := by
  induction l generalizing b with
  | nil => simp [collapseWSAux] at hc
  | cons d t ih =>
    simp only [collapseWSAux] at hc
    split_ifs at hc with hsp hb
    · rcases ih true hc with h | h
      · exact Or.inl (List.mem_cons_of_mem d h)
      · exact Or.inr h
    · rcases List.mem_cons.mp hc with rfl | hc
      · exact Or.inr rfl
      · rcases ih true hc with h | h
        · exact Or.inl (List.mem_cons_of_mem d h)
        · exact Or.inr h
    · rcases List.mem_cons.mp hc with rfl | hc
      · exact Or.inl (List.mem_cons_self _ _)
      · rcases ih false hc with h | h
        · exact Or.inl (List.mem_cons_of_mem d h)
        · exact Or.inr h

theorem collapseWSAux_clean (b : Bool) (l : List Char) :
    ∀ c ∈ collapseWSAux b l, isSpaceChar c = true → c = ' ' := by
  induction l generalizing b with
  | nil => simp [collapseWSAux]
  | cons d t ih =>
    intro c hc hsp
    simp only [collapseWSAux] at hc
    split_ifs at hc with h1 h2
    · exact ih true c hc hsp
    · rcases List.mem_cons.mp hc with rfl | hc
      · rfl
      · exact ih true c hc hsp
    · rcases List.mem_cons.mp hc with rfl | hc
      · exact absurd hsp h1
      · exact ih false c hc hsp

theorem collapseWSAux_true_head (l : List Char) (c : Char)
    (hc : (collapseWSAux true l).head? = some c) : isSpaceChar c = false := by
  induction l with
  | nil => simp [collapseWSAux] at hc
  | cons d t ih =>
    simp only [collapseWSAux] at hc
    split_ifs at hc with h1
    · exact ih hc
    · rw [List.head?_cons, Option.some_inj] at hc
      rw [← hc]
      exact eq_false_of_ne_true (by simp [h1])

theorem collapseWSAux_chain (b : Bool) (l : List Char) :
    (collapseWSAux b l).Chain'
      (fun a c => isSpaceChar a = false ∨ isSpaceChar c = false) := by
  induction l generalizing b with
  | nil => simp [collapseWSAux]
  | cons d t ih =>
    simp only [collapseWSAux]
    split_ifs with h1 h2
    · exact ih true
    · rw [List.chain'_cons']
      refine ⟨?_, ih true⟩
      intro c hc
      exact Or.inr (collapseWSAux_true_head t c hc)
    · rw [List.chain'_cons']
      refine ⟨?_, ih false⟩
      intro c _
      exact Or.inl (eq_false_of_ne_true h1)

theorem collapseWSAux_true_of_head (l : List Char)
    (h : ∀ c, l.head? = some c → isSpaceChar c = false) :
    collapseWSAux true l = collapseWSAux false l := by
  cases l with
  | nil => rfl
  | cons d t =>
    have hd := h d rfl
    simp [collapseWSAux, hd]

theorem collapseWSAux_false_eq_self (l : List Char)
    (hchain : l.Chain' (fun a c => isSpaceChar a = false ∨ isSpaceChar c = false))
    (hclean : ∀ c ∈ l, isSpaceChar c = true → c = ' ') :
    collapseWSAux false l = l := by
  induction l with
  | nil => rfl
  | cons d t ih =>
    rw [List.chain'_cons'] at hchain
    by_cases hsp : isSpaceChar d = true
    · have hd : d = ' ' := hclean d (List.mem_cons_self _ _) hsp
      have hhead : ∀ c, t.head? = some c → isSpaceChar c = false := by
        intro c hc
        rcases hchain.1 c hc with h | h
        · rw [hsp] at h
          exact absurd h (by simp)
        · exact h
      simp only [collapseWSAux, hsp, if_true]
      rw [collapseWSAux_true_of_head t hhead,
        ih hchain.2 (fun c hc => hclean c (List.mem_cons_of_mem d hc)), hd]
      simp
    · simp only [collapseWSAux, hsp, if_false]
      rw [ih hchain.2 (fun c hc => hclean c (List.mem_cons_of_mem d hc))]
      simp [hsp]

theorem collapseWS_eq_self (l : List Char)
    (hchain : l.Chain' (fun a c => isSpaceChar a = false ∨ isSpaceChar c = false))
    (hclean : ∀ c ∈ l, isSpaceChar c = true → c = ' ') :
    collapseWS l = l :=
  collapseWSAux_false_eq_self l hchain hclean

theorem head?_dropWhile_false {p : Char → Bool} (l : List Char) (c : Char)
    (hc : (l.dropWhile p).head? = some c) : p c = false := by
  induction l with
  | nil => simp at hc
  | cons d t ih =>
    rw [List.dropWhile_cons] at hc
    split_ifs at hc with h1
    · exact ih hc
    · rw [List.head?_cons, Option.some_inj] at hc
      rw [← hc]
      exact eq_false_of_ne_true h1

theorem dropWhile_eq_self_of_head {p : Char → Bool} (l : List Char)
    (h : ∀ c, l.head? = some c → p c = false) : l.dropWhile p = l := by
  cases l with
  | nil => rfl
  | cons d t =>
    have hd := h d rfl
    simp [List.dropWhile_cons, hd]

theorem chain'_dropWhile {R : Char → Char → Prop} {p : Char → Bool} (l : List Char)
    (h : l.Chain' R) : (l.dropWhile p).Chain' R := by
  induction l with
  | nil => simp
  | cons d t ih =>
    rw [List.dropWhile_cons]
    split_ifs with h1
    · exact ih (List.Chain'.tail h)
    · exact h

theorem mem_stripWSList (l : List Char) (c : Char) (hc : c ∈ stripWSList l) : c ∈ l := by
  simp only [stripWSList, dropLeadingWS] at hc
  rw [List.mem_reverse] at hc
  have h1 := (List.dropWhile_sublist _).subset hc
  rw [List.mem_reverse] at h1
  exact (List.dropWhile_sublist _).subset h1

theorem chain'_stripWSList (l : List Char)
    (h : l.Chain' (fun a c => isSpaceChar a = false ∨ isSpaceChar c = false)) :
    (stripWSList l).Chain'
      (fun a c => isSpaceChar a = false ∨ isSpaceChar c = false) := by
  simp only [stripWSList, dropLeadingWS]
  rw [List.chain'_reverse]
  apply chain'_dropWhile
  rw [List.chain'_reverse]
  apply List.Chain'.imp ?_ (chain'_dropWhile l h)
  intro a c hac
  exact hac

theorem stripWSList_noEdgeSpace (l : List Char) : noEdgeSpace (stripWSList l) := by
  constructor
  · intro c hc
    simp only [stripWSList, dropLeadingWS] at hc
    rw [List.head?_reverse] at hc
    set A := l.dropWhile isSpaceChar with hA
    set B := A.reverse.dropWhile isSpaceChar with hB
    have hBne : B ≠ [] := by
      intro hnil
      rw [hnil] at hc
      simp at hc
    have hgl : B.getLast hBne = A.reverse.getLast ((List.dropWhile_suffix _).ne_nil hBne) :=
      List.IsSuffix.getLast (List.dropWhile_suffix _) hBne
    rw [List.getLast?_eq_getLast B hBne, Option.some_inj] at hc
    have hrev : A.reverse.getLast ((List.dropWhile_suffix _).ne_nil hBne) = c := by
      rw [← hgl, hc]
    have hAne : A ≠ [] := by
      intro hnil
      have := ((List.dropWhile_suffix isSpaceChar).ne_nil hBne)
      rw [hnil] at this
      simp at this
    have hfin : A.head? = some c := by
      rw [← List.getLast?_reverse A,
        List.getLast?_eq_getLast A.reverse (by simpa using hAne)]
      exact congrArg some hrev
    exact head?_dropWhile_false l c hfin
  · intro c hc
    simp only [stripWSList, dropLeadingWS] at hc
    rw [List.getLast?_reverse] at hc
    exact head?_dropWhile_false _ c hc

theorem stripWSList_eq_self (l : List Char) (h : noEdgeSpace l) : stripWSList l = l := by
  simp only [stripWSList, dropLeadingWS]
  rw [dropWhile_eq_self_of_head l h.1]
  rw [dropWhile_eq_self_of_head l.reverse (by
    intro c hc
    rw [List.head?_reverse] at hc
    exact h.2 c hc)]
  exact List.reverse_reverse l

theorem substFuel_eq_self (m : List Char → Option (List Char × Nat)) (fuel : Nat)
    (s : List Char) (h : ∀ c cs, (c :: cs) <:+ s → m (c :: cs) = none) :
    substFuel m fuel s = s := by
  induction fuel generalizing s with
  | zero => rfl
  | succ n ih =>
    cases s with
    | nil => rfl
    | cons c cs =>
      have h0 : m (c :: cs) = none := h c cs (List.suffix_refl _)
      simp only [substFuel, h0]
      congr 1
      apply ih
      intro d ds hsuf
      exact h d ds (hsuf.trans (List.suffix_cons c cs))

theorem mem_substFuel (m : List Char → Option (List Char × Nat))
    (hrepl : ∀ t r k, m t = some (r, k) → ∀ c ∈ r, c ∈ t ∨ c = ' ')
    (fuel : Nat) (s : List Char) : ∀ c ∈ substFuel m fuel s, c ∈ s ∨ c = ' ' := by
  induction fuel generalizing s with
  | zero => exact fun c hc => Or.inl hc
  | succ n ih =>
    cases s with
    | nil => simp [substFuel]
    | cons d ds =>
      intro c hc
      rcases hm : m (d :: ds) with _ | ⟨r, k⟩
      · rw [substFuel, hm] at hc
        rcases List.mem_cons.mp hc with rfl | hc
        · exact Or.inl (List.mem_cons_self _ _)
        · rcases ih ds c hc with h' | h'
          · exact Or.inl (List.mem_cons_of_mem d h')
          · exact Or.inr h'
      · rw [substFuel, hm] at hc
        rcases List.mem_append.mp hc with hcr | hcr
        · exact hrepl (d :: ds) r k hm c hcr
        · rcases ih _ c hcr with h' | h'
          · exact Or.inl (List.drop_subset k (d :: ds) h')
          · exact Or.inr h'

theorem mem_reSubst (m : List Char → Option (List Char × Nat))
    (hrepl : ∀ t r k, m t = some (r, k) → ∀ c ∈ r, c ∈ t ∨ c = ' ')
    (s : List Char) : ∀ c ∈ reSubst m s, c ∈ s ∨ c = ' ' :=
  mem_substFuel m hrepl s.length s

theorem reSubst_eq_self (m : List Char → Option (List Char × Nat)) (s : List Char)
    (h : ∀ c cs, (c :: cs) <:+ s → m (c :: cs) = none) : reSubst m s = s :=
  substFuel_eq_self m s.length s h

theorem matchCmdBraced_none_of_head (cmd : List Char) (d : Char) (ds : List Char)
    (hd : ¬d = '\\') : matchCmdBraced cmd (d :: ds) = none := by
  unfold matchCmdBraced
  split <;> simp_all

theorem matchGenericCmdBraced_none_of_head (d : Char) (ds : List Char)
    (hd : ¬d = '\\') : matchGenericCmdBraced (d :: ds) = none := by
  unfold matchGenericCmdBraced
  split <;> simp_all

theorem matchBraced_none_of_head (d : Char) (ds : List Char)
    (hd : ¬d = '\x7b') : matchBraced (d :: ds) = none := by
  unfold matchBraced
  split <;> simp_all

theorem matchBareCmd_none_of_head (d : Char) (ds : List Char)
    (hd : ¬d = '\\') : matchBareCmd (d :: ds) = none := by
  unfold matchBareCmd
  split <;> simp_all

theorem matchHtmlEntity_none_of_head (d : Char) (ds : List Char)
    (hd : ¬d = '&') : matchHtmlEntity (d :: ds) = none := by
  unfold matchHtmlEntity
  split <;> simp_all

theorem matchHtmlTag_none_of_head (d : Char) (ds : List Char)
    (hd : ¬d = '<') : matchHtmlTag (d :: ds) = none := by
  unfold matchHtmlTag
  split <;> simp_all

theorem matchCmdBraced_repl (cmd t r : List Char) (k : Nat)
    (h : matchCmdBraced cmd t = some (r, k)) : ∀ c ∈ r, c ∈ t ∨ c = ' ' := by
  unfold matchCmdBraced at h
  split at h
  · rename_i rest
    split_ifs at h with hpre
    split at h
    · rename_i rest2 heq
      simp only [List.isEmpty_iff] at h
      split_ifs at h with hemp
      split at h
      · rename_i rest3 heq2
        obtain ⟨hr, -⟩ := Prod.mk.injEq _ _ _ _ |>.mp (Option.some_inj.mp h)
        subst hr
        intro c hc
        left
        have h1 : c ∈ rest2 := (List.takeWhile_sublist _).subset hc
        have h2 : c ∈ rest.drop cmd.length := by
          rw [heq]
          exact List.mem_cons_of_mem _ h1
        exact List.mem_cons_of_mem _ (List.drop_subset _ _ h2)
      · exact absurd h (by simp)
    · exact absurd h (by simp)
  · exact absurd h (by simp)

theorem matchGenericCmdBraced_repl (t r : List Char) (k : Nat)
    (h : matchGenericCmdBraced t = some (r, k)) : ∀ c ∈ r, c ∈ t ∨ c = ' ' := by
  unfold matchGenericCmdBraced at h
  split at h
  · rename_i rest
    simp only [List.isEmpty_iff] at h
    split_ifs at h with hemp
    split at h
    · rename_i rest2 heq
      split at h
      · rename_i rest3 heq2
        obtain ⟨hr, -⟩ := Prod.mk.injEq _ _ _ _ |>.mp (Option.some_inj.mp h)
        subst hr
        intro c hc
        left
        have h1 : c ∈ rest2 := (List.takeWhile_sublist _).subset hc
        have h2 : c ∈ rest.drop (rest.takeWhile isAsciiLetter).length := by
          rw [heq]
          exact List.mem_cons_of_mem _ h1
        exact List.mem_cons_of_mem _ (List.drop_subset _ _ h2)
      · exact absurd h (by simp)
    · exact absurd h (by simp)
  · exact absurd h (by simp)

theorem matchBraced_repl (t r : List Char) (k : Nat)
    (h : matchBraced t = some (r, k)) : ∀ c ∈ r, c ∈ t ∨ c = ' ' := by
  unfold matchBraced at h
  split at h
  · rename_i rest
    simp only [List.isEmpty_iff] at h
    split_ifs at h with hemp
    split at h
    · rename_i rest2 heq
      obtain ⟨hr, -⟩ := Prod.mk.injEq _ _ _ _ |>.mp (Option.some_inj.mp h)
      subst hr
      intro c hc
      left
      exact List.mem_cons_of_mem _ ((List.takeWhile_sublist _).subset hc)
    · exact absurd h (by simp)
  · exact absurd h (by simp)

theorem matchBareCmd_repl (t r : List Char) (k : Nat)
    (h : matchBareCmd t = some (r, k)) : ∀ c ∈ r, c ∈ t ∨ c = ' ' := by
  unfold matchBareCmd at h
  split at h
  · rename_i rest
    simp only [List.isEmpty_iff] at h
    split_ifs at h with hemp
    obtain ⟨hr, -⟩ := Prod.mk.injEq _ _ _ _ |>.mp (Option.some_inj.mp h)
    subst hr
    intro c hc
    simp at hc
  · exact absurd h (by simp)

theorem matchHtmlEntity_repl (t r : List Char) (k : Nat)
    (h : matchHtmlEntity t = some (r, k)) : ∀ c ∈ r, c ∈ t ∨ c = ' ' := by
  unfold matchHtmlEntity at h
  split at h
  · rename_i rest
    simp only [List.isEmpty_iff] at h
    split_ifs at h with hemp
    split at h
    · rename_i rest2 heq
      obtain ⟨hr, -⟩ := Prod.mk.injEq _ _ _ _ |>.mp (Option.some_inj.mp h)
      subst hr
      intro c hc
      right
      simpa using hc
    · exact absurd h (by simp)
  · exact absurd h (by simp)

theorem matchHtmlTag_repl (t r : List Char) (k : Nat)
    (h : matchHtmlTag t = some (r, k)) : ∀ c ∈ r, c ∈ t ∨ c = ' ' := by
  unfold matchHtmlTag at h
  split at h
  · rename_i rest
    simp only [List.isEmpty_iff] at h
    split_ifs at h with hemp
    split at h
    · rename_i rest2 heq
      obtain ⟨hr, -⟩ := Prod.mk.injEq _ _ _ _ |>.mp (Option.some_inj.mp h)
      subst hr
      intro c hc
      right
      simpa using hc
    · exact absurd h (by simp)
  · exact absurd h (by simp)

theorem pyLower_space_char : pyLower ' ' = ' ' := by decide

theorem normalizeTextList_invariant (l : List Char) :
    lowStable (normalizeTextList l) ∧
    (∀ c ∈ normalizeTextList l, isWordChar c = true ∨ c = ' ') ∧
    (normalizeTextList l).Chain' (fun a b => isSpaceChar a = false ∨ isSpaceChar b = false) ∧
    noEdgeSpace (normalizeTextList l) := by
  have hst1 : ∀ c ∈ (l.map pyLower).map
      (fun c => if isWordChar c || isSpaceChar c then c else ' '), pyLower c = c := by
    intro c hc
    obtain ⟨d, hd, rfl⟩ := List.mem_map.mp hc
    obtain ⟨e, _, rfl⟩ := List.mem_map.mp hd
    split_ifs
    · exact pyLower_pyLower e
    · exact pyLower_space_char
  have hws1 : ∀ c ∈ (l.map pyLower).map
      (fun c => if isWordChar c || isSpaceChar c then c else ' '),
      isWordChar c = true ∨ isSpaceChar c = true := by
    intro c hc
    obtain ⟨d, _, rfl⟩ := List.mem_map.mp hc
    split_ifs with hcond
    · rcases Bool.or_eq_true_iff.mp hcond with h | h
      · exact Or.inl h
      · exact Or.inr h
    · exact Or.inr (by decide)
  set l1 := (l.map pyLower).map
    (fun c => if isWordChar c || isSpaceChar c then c else ' ') with hl1
  have hdef : normalizeTextList l = stripWSList (collapseWS l1) := rfl
  have hsub2 : ∀ c ∈ collapseWS l1, c ∈ l1 ∨ c = ' ' := mem_collapseWSAux false l1
  have hclean2 : ∀ c ∈ collapseWS l1, isSpaceChar c = true → c = ' ' :=
    collapseWSAux_clean false l1
  have hchain2 := collapseWSAux_chain false l1
  have hmem : ∀ c ∈ normalizeTextList l, c ∈ collapseWS l1 := by
    intro c hc
    rw [hdef] at hc
    exact mem_stripWSList _ c hc
  refine ⟨?_, ?_, ?_, ?_⟩
  · intro c hc
    rcases hsub2 c (hmem c hc) with h | h
    · exact hst1 c h
    · rw [h]
      exact pyLower_space_char
  · intro c hc
    rcases hsub2 c (hmem c hc) with h | h
    · rcases hws1 c h with h' | h'
      · exact Or.inl h'
      · exact Or.inr (hclean2 c (hmem c hc) h')
    · exact Or.inr h
  · rw [hdef]
    exact chain'_stripWSList _ hchain2
  · rw [hdef]
    exact stripWSList_noEdgeSpace _

theorem normalizeTextList_idem (l : List Char) :
    normalizeTextList (normalizeTextList l) = normalizeTextList l := by
  obtain ⟨hst, hws, hchain, hedge⟩ := normalizeTextList_invariant l
  set y := normalizeTextList l with hy
  have h1 : y.map pyLower = y := by
    conv_rhs => rw [← List.map_id y]
    exact List.map_congr_left hst
  have h2 : y.map (fun c => if isWordChar c || isSpaceChar c then c else ' ') = y := by
    conv_rhs => rw [← List.map_id y]
    apply List.map_congr_left
    intro c hc
    rcases hws c hc with h | h
    · simp [h]
    · rw [h]
      decide
  have hclean : ∀ c ∈ y, isSpaceChar c = true → c = ' ' := by
    intro c hc hsp
    rcases hws c hc with h | h
    · rw [isWordChar_not_space c hsp] at h
      exact absurd h (by simp)
    · exact h
  show stripWSList (collapseWS ((y.map pyLower).map
    (fun c => if isWordChar c || isSpaceChar c then c else ' '))) = y
  rw [h1, h2]
  rw [show collapseWS y = y from collapseWSAux_false_eq_self y hchain hclean]
  exact stripWSList_eq_self y hedge

/-- C7 for the simple normalizer, string level. -/
theorem normalize_text_idem (s : String) :
    normalize_text (normalize_text s) = normalize_text s := by
  by_cases hs : s = ""
  · subst hs
    rfl
  · have he : normalize_text s = ⟨normalizeTextList s.data⟩ := by
      rw [normalize_text, if_neg hs]
    rw [normalize_text]
    by_cases h0 : normalize_text s = ""
    · rw [if_pos h0, h0]
    · rw [if_neg h0, he]
      exact congrArg String.mk (normalizeTextList_idem s.data)

theorem matcherNormalizeText_idem (s : String) :
    matcherNormalizeText (matcherNormalizeText s) = matcherNormalizeText s := by
  show (⟨normalizeTextList (normalizeTextList s.data)⟩ : String) = _
  rw [normalizeTextList_idem]
  rfl

theorem lowStable_step (prev next : List Char)
    (hsub : ∀ c ∈ next, c ∈ prev ∨ c = ' ')
    (hprev : ∀ c ∈ prev, pyLower c = c) : ∀ c ∈ next, pyLower c = c := by
  intro c hc
  rcases hsub c hc with h | h
  · exact hprev c h
  · rw [h]
    exact pyLower_space_char

theorem titleChar_ne (c : Char) (h : isWordChar c = true ∨ c = '-' ∨ c = ' ') :
    ¬c = '\\' ∧ ¬c = '\x7b' ∧ ¬c = '&' ∧ ¬c = '<' := by
  rcases h with h | h | h
  · refine ⟨?_, ?_, ?_, ?_⟩ <;> (intro hq; subst hq; exact absurd h (by decide))
  · subst h
    exact ⟨by decide, by decide, by decide, by decide⟩
  · subst h
    exact ⟨by decide, by decide, by decide, by decide⟩

theorem normalizeTitleList_eq (l : List Char) :
    normalizeTitleList l = stripWSList (collapseWS (titleStage l)) := rfl

theorem strip_collapse_props (base : List Char)
    (hst : ∀ c ∈ base, pyLower c = c)
    (hcls : ∀ c ∈ base, isWordChar c = true ∨ isSpaceChar c = true ∨ c = '-') :
    lowStable (stripWSList (collapseWS base)) ∧
    (∀ c ∈ stripWSList (collapseWS base), isWordChar c = true ∨ c = '-' ∨ c = ' ') ∧
    (stripWSList (collapseWS base)).Chain'
      (fun a b => isSpaceChar a = false ∨ isSpaceChar b = false) ∧
    noEdgeSpace (stripWSList (collapseWS base)) := by
  have hsubc : ∀ c ∈ collapseWS base, c ∈ base ∨ c = ' ' := mem_collapseWSAux false base
  have hcleanc : ∀ c ∈ collapseWS base, isSpaceChar c = true → c = ' ' :=
    collapseWSAux_clean false base
  have hmem : ∀ c ∈ stripWSList (collapseWS base), c ∈ collapseWS base :=
    fun c hc => mem_stripWSList _ c hc
  refine ⟨?_, ?_, ?_, ?_⟩
  · intro c hc
    rcases hsubc c (hmem c hc) with h | h
    · exact hst c h
    · rw [h]
      exact pyLower_space_char
  · intro c hc
    rcases hsubc c (hmem c hc) with h | h
    · rcases hcls c h with h' | h' | h'
      · exact Or.inl h'
      · exact Or.inr (Or.inr (hcleanc c (hmem c hc) h'))
      · exact Or.inr (Or.inl h')
    · exact Or.inr (Or.inr h)
  · exact chain'_stripWSList _ (collapseWSAux_chain false base)
  · exact stripWSList_noEdgeSpace _

theorem titleStage_lowStable (l : List Char) : ∀ c ∈ titleStage l, pyLower c = c := by
  have hst0 : ∀ c ∈ l.map pyLower, pyLower c = c := by
    intro c hc
    obtain ⟨e, _, rfl⟩ := List.mem_map.mp hc
    exact pyLower_pyLower e
  have hst1 := lowStable_step _ _
    (mem_reSubst _ (fun t r k h => matchCmdBraced_repl "textbf".data t r k h) (l.map pyLower)) hst0
  have hst2 := lowStable_step _ _
    (mem_reSubst _ (fun t r k h => matchCmdBraced_repl "textit".data t r k h) _) hst1
  have hst3 := lowStable_step _ _
    (mem_reSubst _ (fun t r k h => matchCmdBraced_repl "emph".data t r k h) _) hst2
  have hst4 := lowStable_step _ _
    (mem_reSubst _ (fun t r k h => matchCmdBraced_repl "text".data t r k h) _) hst3
  have hst5 := lowStable_step _ _
    (mem_reSubst _ (fun t r k h => matchGenericCmdBraced_repl t r k h) _) hst4
  have hst6 := lowStable_step _ _
    (mem_reSubst _ (fun t r k h => matchBraced_repl t r k h) _) hst5
  have hst7 := lowStable_step _ _
    (mem_reSubst _ (fun t r k h => matchBareCmd_repl t r k h) _) hst6
  have hst8 := lowStable_step _ _
    (mem_reSubst _ (fun t r k h => matchHtmlEntity_repl t r k h) _) hst7
  have hst9 := lowStable_step _ _
    (mem_reSubst _ (fun t r k h => matchHtmlTag_repl t r k h) _) hst8
  intro c hc
  obtain ⟨d, hd, rfl⟩ := List.mem_map.mp hc
  split_ifs
  · exact hst9 d hd
  · exact pyLower_space_char

theorem titleStage_class (l : List Char) :
    ∀ c ∈ titleStage l, isWordChar c = true ∨ isSpaceChar c = true ∨ c = '-' := by
  intro c hc
  obtain ⟨d, _, rfl⟩ := List.mem_map.mp hc
  split_ifs with hcond
  · rcases Bool.or_eq_true_iff.mp hcond with h | h
    · rcases Bool.or_eq_true_iff.mp h with h' | h'
      · exact Or.inl h'
      · exact Or.inr (Or.inl h')
    · exact Or.inr (Or.inr (by simpa using h))
  · exact Or.inr (Or.inl (by decide))

theorem normalizeTitleList_invariant (l : List Char) :
    lowStable (normalizeTitleList l) ∧
    (∀ c ∈ normalizeTitleList l, isWordChar c = true ∨ c = '-' ∨ c = ' ') ∧
    (normalizeTitleList l).Chain'
      (fun a b => isSpaceChar a = false ∨ isSpaceChar b = false) ∧
    noEdgeSpace (normalizeTitleList l) := by
  rw [normalizeTitleList_eq]
  exact strip_collapse_props (titleStage l) (titleStage_lowStable l) (titleStage_class l)

theorem titleStage_eq_self (y : List Char)
    (hst : lowStable y)
    (hcls : ∀ c ∈ y, isWordChar c = true ∨ c = '-' ∨ c = ' ') :
    titleStage y = y := by
  have hne : ∀ c ∈ y, ¬c = '\\' ∧ ¬c = '\x7b' ∧ ¬c = '&' ∧ ¬c = '<' :=
    fun c hc => titleChar_ne c (hcls c hc)
  have hy1 : y.map pyLower = y := by
    conv_rhs => rw [← List.map_id y]
    exact List.map_congr_left hst
  have hb : ∀ cmd, reSubst (matchCmdBraced cmd) y = y := by
    intro cmd
    apply reSubst_eq_self
    intro c cs hsuf
    exact matchCmdBraced_none_of_head cmd c cs
      ((hne c (hsuf.subset (List.mem_cons_self c cs))).1)
  have hr5 : reSubst matchGenericCmdBraced y = y := by
    apply reSubst_eq_self
    intro c cs hsuf
    exact matchGenericCmdBraced_none_of_head c cs
      ((hne c (hsuf.subset (List.mem_cons_self c cs))).1)
  have hr6 : reSubst matchBraced y = y := by
    apply reSubst_eq_self
    intro c cs hsuf
    exact matchBraced_none_of_head c cs
      ((hne c (hsuf.subset (List.mem_cons_self c cs))).2.1)
  have hr7 : reSubst matchBareCmd y = y := by
    apply reSubst_eq_self
    intro c cs hsuf
    exact matchBareCmd_none_of_head c cs
      ((hne c (hsuf.subset (List.mem_cons_self c cs))).1)
  have hr8 : reSubst matchHtmlEntity y = y := by
    apply reSubst_eq_self
    intro c cs hsuf
    exact matchHtmlEntity_none_of_head c cs
      ((hne c (hsuf.subset (List.mem_cons_self c cs))).2.2.1)
  have hr9 : reSubst matchHtmlTag y = y := by
    apply reSubst_eq_self
    intro c cs hsuf
    exact matchHtmlTag_none_of_head c cs
      ((hne c (hsuf.subset (List.mem_cons_self c cs))).2.2.2)
  have hmap : y.map
      (fun c => if isWordChar c || isSpaceChar c || c = '-' then c else ' ') = y := by
    conv_rhs => rw [← List.map_id y]
    apply List.map_congr_left
    intro c hc
    rcases hcls c hc with h | h | h
    · simp [h]
    · rw [h]
      decide
    · rw [h]
      decide
  rw [titleStage, hy1, hb "textbf".data, hb "textit".data, hb "emph".data,
    hb "text".data, hr5, hr6, hr7, hr8, hr9, hmap]

theorem cleanSpaces_of_class (y : List Char)
    (hcls : ∀ c ∈ y, isWordChar c = true ∨ c = '-' ∨ c = ' ') :
    ∀ c ∈ y, isSpaceChar c = true → c = ' ' := by
  intro c hc hsp
  rcases hcls c hc with h | h | h
  · rw [isWordChar_not_space c hsp] at h
    exact absurd h (by simp)
  · subst h
    exact absurd hsp (by decide)
  · exact h

/-- A normalized list (produced from any base satisfying the stage
invariants) is a fixed point of the whole title pipeline. -/
theorem normalized_fixed (base : List Char)
    (hst : ∀ c ∈ base, pyLower c = c)
    (hcls : ∀ c ∈ base, isWordChar c = true ∨ isSpaceChar c = true ∨ c = '-') :
    stripWSList (collapseWS (titleStage (stripWSList (collapseWS base)))) =
      stripWSList (collapseWS base) := by
  obtain ⟨h1, h2, h3, h4⟩ := strip_collapse_props base hst hcls
  have hts : titleStage (stripWSList (collapseWS base)) = stripWSList (collapseWS base) :=
    titleStage_eq_self _ h1 h2
  have hcl : collapseWS (stripWSList (collapseWS base)) = stripWSList (collapseWS base) :=
    collapseWS_eq_self _ h3 (cleanSpaces_of_class _ h2)
  have hstr : stripWSList (stripWSList (collapseWS base)) = stripWSList (collapseWS base) :=
    stripWSList_eq_self _ h4
  rw [hts, hcl, hstr]

theorem normalizeTitleList_idem (l : List Char) :
    normalizeTitleList (normalizeTitleList l) = normalizeTitleList l := by
  have h := normalized_fixed (titleStage l) (titleStage_lowStable l) (titleStage_class l)
  have e1 : normalizeTitleList l = stripWSList (collapseWS (titleStage l)) :=
    normalizeTitleList_eq l
  have e2 : normalizeTitleList (normalizeTitleList l) =
      stripWSList (collapseWS (titleStage (normalizeTitleList l))) :=
    normalizeTitleList_eq (normalizeTitleList l)
  refine e2.trans ?_
  rw [e1]
  exact h

theorem normalize_title_idem (s : String) :
    normalize_title (normalize_title s) = normalize_title s := by
  by_cases hs : s = ""
  · subst hs
    rfl
  · have he : normalize_title s = ⟨normalizeTitleList s.data⟩ := by
      rw [normalize_title, if_neg hs]
    by_cases h0 : normalize_title s = ""
    · calc normalize_title (normalize_title s)
          = normalize_title "" := by rw [h0]
        _ = "" := rfl
        _ = normalize_title s := h0.symm
    · have houter : normalize_title (normalize_title s) =
          ⟨normalizeTitleList (normalize_title s).data⟩ := by
        rw [normalize_title]
        exact if_neg h0
      calc normalize_title (normalize_title s)
          = ⟨normalizeTitleList (normalize_title s).data⟩ := houter
        _ = ⟨normalizeTitleList (normalizeTitleList s.data)⟩ := by rw [he]
        _ = ⟨normalizeTitleList s.data⟩ :=
            congrArg String.mk (normalizeTitleList_idem s.data)
        _ = normalize_title s := he.symm

/-- C7: both text normalizers are idempotent: the full title normalizer
of Publication._normalize_title (lowercase, LaTeX and HTML stripping,
punctuation to space, whitespace collapsing and trimming) and the simple
normalizer shared by similarity_utils.normalize_text and
PublicationMatcher._normalize_text (used for journal comparison). -/
theorem c7_normalization_idempotent (s : String) :
    normalize_title (normalize_title s) = normalize_title s ∧
    normalize_text (normalize_text s) = normalize_text s ∧
    matcherNormalizeText (matcherNormalizeText s) = matcherNormalizeText s :=
  ⟨normalize_title_idem s, normalize_text_idem s, matcherNormalizeText_idem s⟩

end Puby
